import Mathlib

set_option maxHeartbeats 1000000

/-!
Verification of the geometry / visibility / navigation core of the
museum-assassin repository (src/geometry_utils.rs, src/quadtree.rs,
src/pathfinder.rs, and `Polygon::contains` from src/main.rs).

Embedding conventions:
* `f32` arithmetic is idealized as exact rational arithmetic (`ℚ`);
  the `ulps_eq!` approximate comparisons of the source become exact
  equality, which is the intended meaning of those tolerances.
* Square roots arising from distances and normalization are handled
  symbolically: every comparison the code makes has the shape
  `a ≤ b·√m` with `a b m : ℚ`, which is decided by sign analysis and
  squaring (see `leMulSqrt`).
* Fallible operations return `Option`, as in the source.
-/

/-- 2D vector / point with exact rational coordinates (embedding of
`macroquad::math::Vec2`, itself glam's `Vec2`). -/
structure Vec2q where
  x : ℚ
  y : ℚ
deriving DecidableEq, Repr

namespace Vec2q

instance : Add Vec2q := ⟨fun v w => ⟨v.x + w.x, v.y + w.y⟩⟩
instance : Sub Vec2q := ⟨fun v w => ⟨v.x - w.x, v.y - w.y⟩⟩
instance : Neg Vec2q := ⟨fun v => ⟨-v.x, -v.y⟩⟩
instance : SMul ℚ Vec2q := ⟨fun a v => ⟨a * v.x, a * v.y⟩⟩

/-- glam `Vec2::perp_dot`: the 2D cross product `v.x * w.y - v.y * w.x`. -/
def perp_dot (v w : Vec2q) : ℚ := v.x * w.y - v.y * w.x

/-- glam `Vec2::dot`. -/
def dot (v w : Vec2q) : ℚ := v.x * w.x + v.y * w.y

/-- glam `Vec2::length_squared`. -/
def length_squared (v : Vec2q) : ℚ := v.x * v.x + v.y * v.y

/-- Scalar division `v / a` (glam `Vec2 / f32`). -/
def sdiv (v : Vec2q) (a : ℚ) : Vec2q := ⟨v.x / a, v.y / a⟩

@[simp] theorem add_x (v w : Vec2q) : (v + w).x = v.x + w.x := rfl
@[simp] theorem add_y (v w : Vec2q) : (v + w).y = v.y + w.y := rfl
@[simp] theorem sub_x (v w : Vec2q) : (v - w).x = v.x - w.x := rfl
@[simp] theorem sub_y (v w : Vec2q) : (v - w).y = v.y - w.y := rfl
@[simp] theorem smul_x (a : ℚ) (v : Vec2q) : (a • v).x = a * v.x := rfl
@[simp] theorem smul_y (a : ℚ) (v : Vec2q) : (a • v).y = a * v.y := rfl
@[simp] theorem sdiv_x (v : Vec2q) (a : ℚ) : (v.sdiv a).x = v.x / a := rfl
@[simp] theorem sdiv_y (v : Vec2q) (a : ℚ) : (v.sdiv a).y = v.y / a := rfl

theorem ext_iff {v w : Vec2q} : v = w ↔ v.x = w.x ∧ v.y = w.y := by
  cases v; cases w; simp [Vec2q.mk.injEq]

end Vec2q

/-- Axis-aligned rectangle (embedding of `macroquad::math::Rect`):
origin `(x, y)` plus width/height. -/
structure Rectq where
  x : ℚ
  y : ℚ
  w : ℚ
  h : ℚ
deriving DecidableEq, Repr

namespace Rectq

/-- `Rect::center`. -/
def center (r : Rectq) : Vec2q := ⟨r.x + r.w / 2, r.y + r.h / 2⟩

/-- `Rect::contains(point)`: macroquad uses half-open ranges
(`x <= p.x < x + w`, `y <= p.y < y + h`). -/
def containsPt (r : Rectq) (p : Vec2q) : Prop :=
  r.x ≤ p.x ∧ p.x < r.x + r.w ∧ r.y ≤ p.y ∧ p.y < r.y + r.h

instance (r : Rectq) (p : Vec2q) : Decidable (r.containsPt p) := by
  unfold containsPt; infer_instance

/-- `Rect::overlaps(other)`: closed-range overlap test
(`left <= other.right && right >= other.left && ...`). -/
def overlaps (r o : Rectq) : Prop :=
  r.x ≤ o.x + o.w ∧ r.x + r.w ≥ o.x ∧ r.y ≤ o.y + o.h ∧ r.y + r.h ≥ o.y

instance (r o : Rectq) : Decidable (r.overlaps o) := by
  unfold overlaps; infer_instance

end Rectq

/-- Membership of a point on a closed segment, as a mathematical reference
predicate (used to state what a "true" intersection is). -/
def onSeg (a b p : Vec2q) : Prop :=
  ∃ t : ℚ, 0 ≤ t ∧ t ≤ 1 ∧ p = a + t • (b - a)

/-- `intersect_line_point` from src/geometry_utils.rs: is `point` on the
closed segment `line_start–line_end`?  The source takes square roots of the
three squared distances and tests `√ab2 = √ap2 + √pb2`; over exact
arithmetic that equation is equivalent to
`ab2 - ap2 - pb2 ≥ 0 ∧ (ab2 - ap2 - pb2)^2 = 4 * ap2 * pb2`
(move one root across and square twice), which is the form decided here. -/
def intersect_line_point (line_start line_end point : Vec2q) : Option Vec2q :=
  if line_start = point then some point
  else if line_end = point then some point
  else
    let ab2 := (line_end.x - line_start.x) * (line_end.x - line_start.x) +
               (line_end.y - line_start.y) * (line_end.y - line_start.y)
    let ap2 := (point.x - line_start.x) * (point.x - line_start.x) +
               (point.y - line_start.y) * (point.y - line_start.y)
    let pb2 := (line_end.x - point.x) * (line_end.x - point.x) +
               (line_end.y - point.y) * (line_end.y - point.y)
    if 0 ≤ ab2 - ap2 - pb2 ∧ (ab2 - ap2 - pb2) ^ 2 = 4 * ap2 * pb2 then some point
    else none

/-- The four sequential AABB early-rejection tests at the top of
`intersect_lines` (each returns `none`; jointly they are this disjunction). -/
def aabb_reject (a_start a_end b_start b_end : Vec2q) : Prop :=
  (a_end.x > b_end.x ∧ a_end.x > b_start.x ∧ a_start.x > b_end.x ∧ a_start.x > b_start.x) ∨
  (a_end.x < b_end.x ∧ a_end.x < b_start.x ∧ a_start.x < b_end.x ∧ a_start.x < b_start.x) ∨
  (a_end.y > b_end.y ∧ a_end.y > b_start.y ∧ a_start.y > b_end.y ∧ a_start.y > b_start.y) ∨
  (a_end.y < b_end.y ∧ a_end.y < b_start.y ∧ a_start.y < b_end.y ∧ a_start.y < b_start.y)

instance (a_start a_end b_start b_end : Vec2q) :
    Decidable (aabb_reject a_start a_end b_start b_end) := by
  unfold aabb_reject; infer_instance

/-- The parametric value `t = (q − p) × (s / (r × s))` computed in the
non-parallel branch of `intersect_lines` (`p, r` from segment a;
`q, s` from segment b). -/
def tParam (a_start a_end b_start b_end : Vec2q) : ℚ :=
  Vec2q.perp_dot (b_start - a_start)
    (Vec2q.sdiv (b_end - b_start) (Vec2q.perp_dot (a_end - a_start) (b_end - b_start)))

/-- The parametric value `u = (q − p) × (r / (r × s))` computed in the
non-parallel branch of `intersect_lines`. -/
def uParam (a_start a_end b_start b_end : Vec2q) : ℚ :=
  Vec2q.perp_dot (b_start - a_start)
    (Vec2q.sdiv (a_end - a_start) (Vec2q.perp_dot (a_end - a_start) (b_end - b_start)))

/-- Body of `intersect_lines` after the AABB early-rejection block, with the
source's `let` names (`p`, `q`, `r`, `s`, `r_cross_s`, `q_minus_p`, `t`, `u`)
inlined: `r_cross_s` is `perp_dot (a_end - a_start) (b_end - b_start)`,
`q_minus_p_cross_r` is `perp_dot (b_start - a_start) (a_end - a_start)`,
and `t`/`u` are `tParam`/`uParam`. -/
def intersect_lines_core (a_start a_end b_start b_end : Vec2q) : Option Vec2q :=
  if Vec2q.perp_dot (a_end - a_start) (b_end - b_start) = 0 then
    if a_start = a_end ∨ b_start = b_end then
      if a_start = a_end ∧ b_start = b_end ∧ a_start = b_start then some a_start
      else if a_start = a_end then intersect_line_point b_start b_end a_start
      else intersect_line_point a_start a_end b_start
    else if Vec2q.perp_dot (b_start - a_start) (a_end - a_start) = 0 then some a_start
    else none
  else
    if 0 ≤ tParam a_start a_end b_start b_end ∧ tParam a_start a_end b_start b_end ≤ 1 ∧
        0 ≤ uParam a_start a_end b_start b_end ∧ uParam a_start a_end b_start b_end ≤ 1 then
      some (a_start + tParam a_start a_end b_start b_end • (a_end - a_start))
    else none

/-- `intersect_lines` from src/geometry_utils.rs: segment–segment
intersection via AABB early rejection, then the parametric `r × s`
method, with fallbacks for degenerate (point) segments and a single
representative point for collinear overlaps. -/
def intersect_lines (a_start a_end b_start b_end : Vec2q) : Option Vec2q :=
  if aabb_reject a_start a_end b_start b_end then none
  else intersect_lines_core a_start a_end b_start b_end

example : intersect_lines ⟨0, 0⟩ ⟨10, 10⟩ ⟨0, 10⟩ ⟨10, 0⟩ = some ⟨5, 5⟩ := by with_unfolding_all decide

example : intersect_lines ⟨0, 0⟩ ⟨1, 0⟩ ⟨0, 5⟩ ⟨1, 5⟩ = none := by with_unfolding_all decide

example : intersect_lines ⟨0, 0⟩ ⟨2, 0⟩ ⟨1, 0⟩ ⟨3, 0⟩ = some ⟨0, 0⟩ := by with_unfolding_all decide

example : intersect_lines ⟨1, 0⟩ ⟨3, 0⟩ ⟨0, 0⟩ ⟨2, 0⟩ = some ⟨1, 0⟩ := by with_unfolding_all decide

/-! ### Algebraic facts about the geometry kernel -/

theorem Vec2q.mul_self_add_mul_self_pos {v : Vec2q} (h : ¬(v.x = 0 ∧ v.y = 0)) :
    0 < v.x * v.x + v.y * v.y := by
  rcases Decidable.not_and_iff_or_not.1 h with hx | hy
  · have h1 : 0 < v.x * v.x := mul_self_pos.2 hx
    have h2 : 0 ≤ v.y * v.y := mul_self_nonneg _
    linarith
  · have h1 : 0 < v.y * v.y := mul_self_pos.2 hy
    have h2 : 0 ≤ v.x * v.x := mul_self_nonneg _
    linarith

theorem Vec2q.sub_ne_zero_coords {v w : Vec2q} (h : v ≠ w) :
    ¬((w.x - v.x = 0) ∧ (w.y - v.y = 0)) := by
  rintro ⟨hx, hy⟩
  exact h (Vec2q.ext_iff.2 ⟨by linarith, by linarith⟩)

/-- A convex combination of two positive rationals is positive. -/
theorem convex_pos {t P Q : ℚ} (ht0 : 0 ≤ t) (ht1 : t ≤ 1) (hP : 0 < P) (hQ : 0 < Q) :
    0 < (1 - t) * P + t * Q := by
  rcases le_total P Q with h | h
  · nlinarith [mul_le_mul_of_nonneg_left h ht0]
  · nlinarith [mul_le_mul_of_nonneg_left h (by linarith : (0:ℚ) ≤ 1 - t)]

/-- If both segments lie strictly on opposite sides of a coordinate threshold
(the AABB separation pattern), their parametric points can never meet. -/
theorem convex_sep {as ae bs be t u : ℚ} (ht0 : 0 ≤ t) (ht1 : t ≤ 1)
    (hu0 : 0 ≤ u) (hu1 : u ≤ 1)
    (heq : as + t * (ae - as) = bs + u * (be - bs))
    (h1 : be < ae) (h2 : bs < ae) (h3 : be < as) (h4 : bs < as) : False := by
  have hP : 0 < (1 - u) * (as - bs) + u * (as - be) :=
    convex_pos hu0 hu1 (by linarith) (by linarith)
  have hQ : 0 < (1 - u) * (ae - bs) + u * (ae - be) :=
    convex_pos hu0 hu1 (by linarith) (by linarith)
  have hsum : (1 - t) * ((1 - u) * (as - bs) + u * (as - be)) +
      t * ((1 - u) * (ae - bs) + u * (ae - be)) = 0 := by linear_combination heq
  have := convex_pos ht0 ht1 hP hQ
  linarith

/-- A point common to both closed segments rules out every one of the four
AABB early-rejection tests of `intersect_lines`. -/
theorem aabb_reject_no_common {a_start a_end b_start b_end X : Vec2q}
    (hX1 : onSeg a_start a_end X) (hX2 : onSeg b_start b_end X) :
    ¬ aabb_reject a_start a_end b_start b_end := by
  obtain ⟨t, ht0, ht1, hXt⟩ := hX1
  obtain ⟨u, hu0, hu1, hXu⟩ := hX2
  have hxy : a_start + t • (a_end - a_start) = b_start + u • (b_end - b_start) :=
    hXt.symm.trans hXu
  have hx : a_start.x + t * (a_end.x - a_start.x) = b_start.x + u * (b_end.x - b_start.x) := by
    have := congrArg Vec2q.x hxy
    simpa using this
  have hy : a_start.y + t * (a_end.y - a_start.y) = b_start.y + u * (b_end.y - b_start.y) := by
    have := congrArg Vec2q.y hxy
    simpa using this
  rintro (⟨h1, h2, h3, h4⟩ | ⟨h1, h2, h3, h4⟩ | ⟨h1, h2, h3, h4⟩ | ⟨h1, h2, h3, h4⟩)
  · exact convex_sep ht0 ht1 hu0 hu1 hx h1 h2 h3 h4
  · exact convex_sep ht0 ht1 hu0 hu1
      (by linear_combination (-1 : ℚ) * hx :
        -a_start.x + t * (-a_end.x - -a_start.x) = -b_start.x + u * (-b_end.x - -b_start.x))
      (by linarith) (by linarith) (by linarith) (by linarith)
  · exact convex_sep ht0 ht1 hu0 hu1 hy h1 h2 h3 h4
  · exact convex_sep ht0 ht1 hu0 hu1
      (by linear_combination (-1 : ℚ) * hy :
        -a_start.y + t * (-a_end.y - -a_start.y) = -b_start.y + u * (-b_end.y - -b_start.y))
      (by linarith) (by linarith) (by linarith) (by linarith)

/-- Cramer identity: in the non-parallel case, the two parametric points
`p + t·r` and `q + u·s` built from `tParam` and `uParam` coincide. -/
theorem cramer_eq {a_start a_end b_start b_end : Vec2q}
    (hd : Vec2q.perp_dot (a_end - a_start) (b_end - b_start) ≠ 0) :
    a_start + tParam a_start a_end b_start b_end • (a_end - a_start) =
      b_start + uParam a_start a_end b_start b_end • (b_end - b_start) := by
  have hd' : (a_end.x - a_start.x) * (b_end.y - b_start.y) -
      (a_end.y - a_start.y) * (b_end.x - b_start.x) ≠ 0 := by
    simpa [Vec2q.perp_dot] using hd
  refine Vec2q.ext_iff.2 ⟨?_, ?_⟩ <;>
  · simp only [tParam, uParam, Vec2q.perp_dot, Vec2q.sdiv_x, Vec2q.sdiv_y, Vec2q.add_x,
      Vec2q.add_y, Vec2q.sub_x, Vec2q.sub_y, Vec2q.smul_x, Vec2q.smul_y]
    field_simp
    ring

/-- Uniqueness of the parametric solution: any common parametric
representation of a point on both (non-parallel) lines matches
`tParam` and `uParam`. -/
theorem param_eq_of_common {a_start a_end b_start b_end X : Vec2q} {t0 u0 : ℚ}
    (hd : Vec2q.perp_dot (a_end - a_start) (b_end - b_start) ≠ 0)
    (h1 : X = a_start + t0 • (a_end - a_start))
    (h2 : X = b_start + u0 • (b_end - b_start)) :
    tParam a_start a_end b_start b_end = t0 ∧ uParam a_start a_end b_start b_end = u0 := by
  have hd' : (a_end.x - a_start.x) * (b_end.y - b_start.y) -
      (a_end.y - a_start.y) * (b_end.x - b_start.x) ≠ 0 := by
    simpa [Vec2q.perp_dot] using hd
  have hxy := h1.symm.trans h2
  have ex : b_start.x - a_start.x =
      t0 * (a_end.x - a_start.x) - u0 * (b_end.x - b_start.x) := by
    have := congrArg Vec2q.x hxy
    simp at this
    linarith
  have ey : b_start.y - a_start.y =
      t0 * (a_end.y - a_start.y) - u0 * (b_end.y - b_start.y) := by
    have := congrArg Vec2q.y hxy
    simp at this
    linarith
  constructor
  · simp only [tParam, Vec2q.perp_dot, Vec2q.sdiv_x, Vec2q.sdiv_y, Vec2q.sub_x, Vec2q.sub_y]
    field_simp
    linear_combination (b_end.y - b_start.y) * ex - (b_end.x - b_start.x) * ey
  · simp only [uParam, Vec2q.perp_dot, Vec2q.sdiv_x, Vec2q.sdiv_y, Vec2q.sub_x, Vec2q.sub_y]
    field_simp
    linear_combination (a_end.y - a_start.y) * ex - (a_end.x - a_start.x) * ey

/-! ### Claim C2: non-parallel segment intersection characterization -/

/-- C2: for non-parallel (hence non-degenerate) segments, `intersect_lines`
returns `some` exactly when both parametric values `t` and `u` lie in the
inclusive interval `[0, 1]`, and the returned point is the unique crossing
`p + t·r`; in particular segments (0,0)-(10,10) and (0,10)-(10,0) intersect
at (5,5). -/
theorem intersect_lines_nonparallel_characterization :
    (∀ a_start a_end b_start b_end : Vec2q,
      Vec2q.perp_dot (a_end - a_start) (b_end - b_start) ≠ 0 →
      intersect_lines a_start a_end b_start b_end =
        if 0 ≤ tParam a_start a_end b_start b_end ∧ tParam a_start a_end b_start b_end ≤ 1 ∧
            0 ≤ uParam a_start a_end b_start b_end ∧ uParam a_start a_end b_start b_end ≤ 1 then
          some (a_start + tParam a_start a_end b_start b_end • (a_end - a_start))
        else none) ∧
    intersect_lines ⟨0, 0⟩ ⟨10, 10⟩ ⟨0, 10⟩ ⟨10, 0⟩ = some ⟨5, 5⟩ := by
  constructor
  · intro a_start a_end b_start b_end hd
    unfold intersect_lines
    by_cases hsep : aabb_reject a_start a_end b_start b_end
    · rw [if_pos hsep, eq_comm, if_neg]
      rintro ⟨ht0, ht1, hu0, hu1⟩
      exact aabb_reject_no_common ⟨_, ht0, ht1, rfl⟩ ⟨_, hu0, hu1, cramer_eq hd⟩ hsep
    · rw [if_neg hsep]
      unfold intersect_lines_core
      rw [if_neg hd]
  · with_unfolding_all decide

/-- C2 witness: the characterization applied to the concrete crossing
segments (0,0)-(10,10) and (0,10)-(10,0). -/
theorem intersect_lines_nonparallel_characterization_witness :
    intersect_lines ⟨0, 0⟩ ⟨10, 10⟩ ⟨0, 10⟩ ⟨10, 0⟩ =
      if 0 ≤ tParam ⟨0, 0⟩ ⟨10, 10⟩ ⟨0, 10⟩ ⟨10, 0⟩ ∧
          tParam ⟨0, 0⟩ ⟨10, 10⟩ ⟨0, 10⟩ ⟨10, 0⟩ ≤ 1 ∧
          0 ≤ uParam ⟨0, 0⟩ ⟨10, 10⟩ ⟨0, 10⟩ ⟨10, 0⟩ ∧
          uParam ⟨0, 0⟩ ⟨10, 10⟩ ⟨0, 10⟩ ⟨10, 0⟩ ≤ 1 then
        some ((⟨0, 0⟩ : Vec2q) + tParam ⟨0, 0⟩ ⟨10, 10⟩ ⟨0, 10⟩ ⟨10, 0⟩ •
          ((⟨10, 10⟩ : Vec2q) - ⟨0, 0⟩))
      else none :=
  intersect_lines_nonparallel_characterization.1 ⟨0, 0⟩ ⟨10, 10⟩ ⟨0, 10⟩ ⟨10, 0⟩
    (by with_unfolding_all decide)

/-! ### Claim C3: parallel segments -/

/-- C3: for two non-degenerate parallel segments, `intersect_lines` returns
`none` when they are non-collinear (e.g. (0,0)-(1,0) and (0,5)-(1,5)), and
when they are collinear and share at least one point it returns exactly the
first segment's start point. -/
theorem intersect_lines_parallel_behavior :
    (∀ a_start a_end b_start b_end : Vec2q,
      a_start ≠ a_end → b_start ≠ b_end →
      Vec2q.perp_dot (a_end - a_start) (b_end - b_start) = 0 →
      ((Vec2q.perp_dot (b_start - a_start) (a_end - a_start) ≠ 0 →
          intersect_lines a_start a_end b_start b_end = none) ∧
       ((∃ X, onSeg a_start a_end X ∧ onSeg b_start b_end X) →
          intersect_lines a_start a_end b_start b_end = some a_start))) ∧
    intersect_lines ⟨0, 0⟩ ⟨1, 0⟩ ⟨0, 5⟩ ⟨1, 5⟩ = none := by
  constructor
  · intro a_start a_end b_start b_end hab hcd hpar
    constructor
    · intro hnc
      unfold intersect_lines
      by_cases hsep : aabb_reject a_start a_end b_start b_end
      · rw [if_pos hsep]
      · rw [if_neg hsep]
        unfold intersect_lines_core
        rw [if_pos hpar, if_neg (by tauto : ¬(a_start = a_end ∨ b_start = b_end)),
          if_neg hnc]
    · rintro ⟨X, hXa, hXb⟩
      have hsep := aabb_reject_no_common hXa hXb
      obtain ⟨t, ht0, ht1, hXt⟩ := hXa
      obtain ⟨u, hu0, hu1, hXu⟩ := hXb
      have hxy := hXt.symm.trans hXu
      have ex : b_start.x - a_start.x =
          t * (a_end.x - a_start.x) - u * (b_end.x - b_start.x) := by
        have := congrArg Vec2q.x hxy
        simp at this
        linarith
      have ey : b_start.y - a_start.y =
          t * (a_end.y - a_start.y) - u * (b_end.y - b_start.y) := by
        have := congrArg Vec2q.y hxy
        simp at this
        linarith
      have hpar' : (a_end.x - a_start.x) * (b_end.y - b_start.y) -
          (a_end.y - a_start.y) * (b_end.x - b_start.x) = 0 := by
        simpa [Vec2q.perp_dot] using hpar
      have hcol : Vec2q.perp_dot (b_start - a_start) (a_end - a_start) = 0 := by
        simp only [Vec2q.perp_dot, Vec2q.sub_x, Vec2q.sub_y]
        linear_combination (a_end.y - a_start.y) * ex - (a_end.x - a_start.x) * ey +
          u * hpar'
      unfold intersect_lines
      rw [if_neg hsep]
      unfold intersect_lines_core
      rw [if_pos hpar, if_neg (by tauto : ¬(a_start = a_end ∨ b_start = b_end)),
        if_pos hcol]
  · with_unfolding_all decide

/-- C3 witness: the collinear-overlap half applied to the concrete
overlapping collinear segments (0,0)-(2,0) and (1,0)-(3,0) (shared point
(3/2, 0)), returning the first segment's start (0,0). -/
theorem intersect_lines_parallel_behavior_witness :
    intersect_lines ⟨0, 0⟩ ⟨2, 0⟩ ⟨1, 0⟩ ⟨3, 0⟩ = some ⟨0, 0⟩ :=
  (intersect_lines_parallel_behavior.1 ⟨0, 0⟩ ⟨2, 0⟩ ⟨1, 0⟩ ⟨3, 0⟩
      (by with_unfolding_all decide) (by with_unfolding_all decide)
      (by with_unfolding_all decide)).2
    ⟨⟨3/2, 0⟩, ⟨3/4, by norm_num, by norm_num, by
        refine Vec2q.ext_iff.2 ⟨?_, ?_⟩ <;> simp <;> norm_num⟩,
      ⟨1/4, by norm_num, by norm_num, by
        refine Vec2q.ext_iff.2 ⟨?_, ?_⟩ <;> simp <;> norm_num⟩⟩

/-! ### Claim C1: symmetry of segment-segment intersection -/

theorem Vec2q.perp_dot_swap (v w : Vec2q) : Vec2q.perp_dot v w = -Vec2q.perp_dot w v := by
  simp only [Vec2q.perp_dot]
  ring

theorem aabb_reject_swap {a b c d : Vec2q} (h : aabb_reject a b c d) :
    aabb_reject c d a b := by
  unfold aabb_reject at h ⊢
  rcases h with ⟨h1, h2, h3, h4⟩ | ⟨h1, h2, h3, h4⟩ | ⟨h1, h2, h3, h4⟩ | ⟨h1, h2, h3, h4⟩
  · exact Or.inr (Or.inl ⟨h1, h3, h2, h4⟩)
  · exact Or.inl ⟨h1, h3, h2, h4⟩
  · exact Or.inr (Or.inr (Or.inr ⟨h1, h3, h2, h4⟩))
  · exact Or.inr (Or.inr (Or.inl ⟨h1, h3, h2, h4⟩))

/-- The AABB rejection disjunction is symmetric in the two segments. -/
theorem aabb_reject_symm {a b c d : Vec2q} :
    aabb_reject a b c d ↔ aabb_reject c d a b :=
  ⟨aabb_reject_swap, aabb_reject_swap⟩

/-- `intersect_line_point` on a degenerate (single-point) line that differs
from the queried point returns `none`. -/
theorem intersect_line_point_degenerate_ne {ls le p : Vec2q} (hline : ls = le)
    (hne : ls ≠ p) : intersect_line_point ls le p = none := by
  subst hline
  have hpos : 0 < (p.x - ls.x) * (p.x - ls.x) + (p.y - ls.y) * (p.y - ls.y) := by
    have := Vec2q.mul_self_add_mul_self_pos (v := ⟨p.x - ls.x, p.y - ls.y⟩)
      (by simpa using Vec2q.sub_ne_zero_coords hne)
    simpa using this
  simp only [intersect_line_point]
  rw [if_neg hne, if_neg hne, if_neg]
  rintro ⟨hge, -⟩
  nlinarith [hpos]

/-- Transfer of collinearity across a shared direction: if `b - a` and
`d - c` are parallel and `c` is on the line through `a, b`, then `a` is on
the line through `c, d`. -/
theorem collinear_swap {a b c d : Vec2q}
    (hpar : Vec2q.perp_dot (b - a) (d - c) = 0) (hab : a ≠ b)
    (hcol : Vec2q.perp_dot (c - a) (b - a) = 0) :
    Vec2q.perp_dot (a - c) (d - c) = 0 := by
  have hx : Vec2q.perp_dot (c - a) (d - c) * (b - a).x =
      Vec2q.perp_dot (b - a) (d - c) * (c - a).x +
      Vec2q.perp_dot (c - a) (b - a) * (d - c).x := by
    simp only [Vec2q.perp_dot, Vec2q.sub_x, Vec2q.sub_y]
    ring
  have hy : Vec2q.perp_dot (c - a) (d - c) * (b - a).y =
      Vec2q.perp_dot (b - a) (d - c) * (c - a).y +
      Vec2q.perp_dot (c - a) (b - a) * (d - c).y := by
    simp only [Vec2q.perp_dot, Vec2q.sub_x, Vec2q.sub_y]
    ring
  rw [hpar, hcol, zero_mul, zero_mul, add_zero] at hx hy
  have hzero : Vec2q.perp_dot (c - a) (d - c) = 0 := by
    rcases Decidable.not_and_iff_or_not.1 (Vec2q.sub_ne_zero_coords hab) with h | h
    · exact (mul_eq_zero.1 hx).resolve_right h
    · exact (mul_eq_zero.1 hy).resolve_right h
  have : Vec2q.perp_dot (a - c) (d - c) = -Vec2q.perp_dot (c - a) (d - c) := by
    simp only [Vec2q.perp_dot, Vec2q.sub_x, Vec2q.sub_y]
    ring
  rw [this, hzero, neg_zero]

/-- Swapping the segments turns `tParam` into `uParam`. -/
theorem tParam_swap (a b c d : Vec2q) : tParam c d a b = uParam a b c d := by
  simp only [tParam, uParam, Vec2q.perp_dot, Vec2q.sdiv_x, Vec2q.sdiv_y,
    Vec2q.sub_x, Vec2q.sub_y]
  set D := (b.x - a.x) * (d.y - c.y) - (b.y - a.y) * (d.x - c.x) with hD
  have hneg : (d.x - c.x) * (b.y - a.y) - (d.y - c.y) * (b.x - a.x) = -D := by
    rw [hD]; ring
  rw [hneg]
  simp only [div_neg]
  ring

/-- Swapping the segments turns `uParam` into `tParam`. -/
theorem uParam_swap (a b c d : Vec2q) : uParam c d a b = tParam a b c d := by
  simp only [tParam, uParam, Vec2q.perp_dot, Vec2q.sdiv_x, Vec2q.sdiv_y,
    Vec2q.sub_x, Vec2q.sub_y]
  set D := (b.x - a.x) * (d.y - c.y) - (b.y - a.y) * (d.x - c.x) with hD
  have hneg : (d.x - c.x) * (b.y - a.y) - (d.y - c.y) * (b.x - a.x) = -D := by
    rw [hD]; ring
  rw [hneg]
  simp only [div_neg]
  ring

/-- The post-AABB body is symmetric when one of the segments is degenerate. -/
theorem core_symm_pt {a b c d : Vec2q}
    (hpar : Vec2q.perp_dot (b - a) (d - c) = 0) (hpt : a = b ∨ c = d) :
    intersect_lines_core a b c d = intersect_lines_core c d a b := by
  have hpar' : Vec2q.perp_dot (d - c) (b - a) = 0 := by
    rw [Vec2q.perp_dot_swap]; simp [hpar]
  unfold intersect_lines_core
  rw [if_pos hpar, if_pos hpar', if_pos hpt, if_pos hpt.symm]
  by_cases hab : a = b
  · by_cases hcd : c = d
    · by_cases heq : a = c
      · rw [if_pos ⟨hab, hcd, heq⟩, if_pos ⟨hcd, hab, heq.symm⟩, heq]
      · rw [if_neg (show ¬(a = b ∧ c = d ∧ a = c) from fun h => heq h.2.2),
          if_neg (show ¬(c = d ∧ a = b ∧ c = a) from fun h => heq h.2.2.symm),
          if_pos hab, if_pos hcd,
          intersect_line_point_degenerate_ne hcd (fun h => heq h.symm),
          intersect_line_point_degenerate_ne hab heq]
    · rw [if_neg (show ¬(a = b ∧ c = d ∧ a = c) from fun h => hcd h.2.1),
        if_neg (show ¬(c = d ∧ a = b ∧ c = a) from fun h => hcd h.1),
        if_pos hab, if_neg hcd]
  · have hcd : c = d := hpt.resolve_left hab
    rw [if_neg (show ¬(a = b ∧ c = d ∧ a = c) from fun h => hab h.1),
      if_neg (show ¬(c = d ∧ a = b ∧ c = a) from fun h => hab h.2.1),
      if_neg hab, if_pos hcd]

/-- The post-AABB body is symmetric when the segments are not parallel. -/
theorem core_symm_nonpar {a b c d : Vec2q}
    (hd : Vec2q.perp_dot (b - a) (d - c) ≠ 0) :
    intersect_lines_core a b c d = intersect_lines_core c d a b := by
  have hd' : Vec2q.perp_dot (d - c) (b - a) ≠ 0 := by
    rw [Vec2q.perp_dot_swap]
    exact neg_ne_zero.2 hd
  unfold intersect_lines_core
  rw [if_neg hd, if_neg hd', tParam_swap a b c d, uParam_swap a b c d]
  refine if_congr ?_ ?_ rfl
  · constructor
    · rintro ⟨h1, h2, h3, h4⟩; exact ⟨h3, h4, h1, h2⟩
    · rintro ⟨h1, h2, h3, h4⟩; exact ⟨h3, h4, h1, h2⟩
  · rw [cramer_eq hd]

/-- C1 counterexample: the two calls on overlapping collinear segments
(0,0)-(2,0) and (1,0)-(3,0) return different representative points, so
`intersect_segments` is not symmetric in its two segments. -/
theorem intersect_lines_not_symmetric :
    intersect_lines ⟨0, 0⟩ ⟨2, 0⟩ ⟨1, 0⟩ ⟨3, 0⟩ = some ⟨0, 0⟩ ∧
    intersect_lines ⟨1, 0⟩ ⟨3, 0⟩ ⟨0, 0⟩ ⟨2, 0⟩ = some ⟨1, 0⟩ ∧
    intersect_lines ⟨0, 0⟩ ⟨2, 0⟩ ⟨1, 0⟩ ⟨3, 0⟩ ≠
      intersect_lines ⟨1, 0⟩ ⟨3, 0⟩ ⟨0, 0⟩ ⟨2, 0⟩ :=
  ⟨by with_unfolding_all decide, by with_unfolding_all decide,
    by with_unfolding_all decide⟩

/-- C1 (amended): `intersect_lines` is symmetric in its two segments for all
inputs except when both segments are non-degenerate, parallel and collinear;
in that remaining case each call returns its own first segment's start
point (which differ in general). -/
theorem intersect_lines_symm_or_collinear_overlap :
    ∀ a b c d : Vec2q,
      intersect_lines a b c d = intersect_lines c d a b ∨
      (a ≠ b ∧ c ≠ d ∧ Vec2q.perp_dot (b - a) (d - c) = 0 ∧
        Vec2q.perp_dot (c - a) (b - a) = 0 ∧
        intersect_lines a b c d = some a ∧ intersect_lines c d a b = some c) := by
  intro a b c d
  by_cases hsep : aabb_reject a b c d
  · left
    unfold intersect_lines
    rw [if_pos hsep, if_pos (aabb_reject_swap hsep)]
  · have hsep' : ¬ aabb_reject c d a b := fun h => hsep (aabb_reject_swap h)
    by_cases hpar : Vec2q.perp_dot (b - a) (d - c) = 0
    · by_cases hpt : a = b ∨ c = d
      · left
        unfold intersect_lines
        rw [if_neg hsep, if_neg hsep']
        exact core_symm_pt hpar hpt
      · obtain ⟨hab, hcd⟩ := not_or.1 hpt
        have hpar' : Vec2q.perp_dot (d - c) (b - a) = 0 := by
          rw [Vec2q.perp_dot_swap]; simp [hpar]
        by_cases hcol : Vec2q.perp_dot (c - a) (b - a) = 0
        · right
          have hcol' : Vec2q.perp_dot (a - c) (d - c) = 0 :=
            collinear_swap hpar hab hcol
          refine ⟨hab, hcd, hpar, hcol, ?_, ?_⟩
          · unfold intersect_lines intersect_lines_core
            rw [if_neg hsep, if_pos hpar, if_neg hpt, if_pos hcol]
          · unfold intersect_lines intersect_lines_core
            rw [if_neg hsep', if_pos hpar',
              if_neg (show ¬(c = d ∨ a = b) from fun h => hpt h.symm), if_pos hcol']
        · left
          have hcol' : ¬ Vec2q.perp_dot (a - c) (d - c) = 0 := fun h =>
            hcol (collinear_swap hpar' hcd h)
          unfold intersect_lines intersect_lines_core
          rw [if_neg hsep, if_neg hsep', if_pos hpar, if_pos hpar',
            if_neg hpt, if_neg (show ¬(c = d ∨ a = b) from fun h => hpt h.symm),
            if_neg hcol, if_neg hcol']
    · left
      unfold intersect_lines
      rw [if_neg hsep, if_neg hsep']
      exact core_symm_nonpar hpar

/-! ### Claim C9: strict barycentric containment (`triangle_contains`, `Polygon::contains`) -/

/-- `triangle_contains` from src/geometry_utils.rs: strictly positive
barycentric coordinates (`area` is the `* 0.5` signed area; each `bary` is a
`perp_dot` divided by it; all three must be `> 0`). -/
def triangle_contains (p a b c : Vec2q) : Prop :=
  Vec2q.perp_dot (p - b) (p - c) / (Vec2q.perp_dot (b - a) (c - a) * (1 / 2)) > 0 ∧
  Vec2q.perp_dot (p - c) (p - a) / (Vec2q.perp_dot (b - a) (c - a) * (1 / 2)) > 0 ∧
  Vec2q.perp_dot (p - a) (p - b) / (Vec2q.perp_dot (b - a) (c - a) * (1 / 2)) > 0

instance (p a b c : Vec2q) : Decidable (triangle_contains p a b c) := by
  unfold triangle_contains; infer_instance

/-- Embedding of macroquad's `Vertex.position` (a `Vec3`); the `uv` and
`color` fields play no role in `Polygon::contains` and are omitted. -/
structure Vec3q where
  x : ℚ
  y : ℚ
  z : ℚ
deriving DecidableEq, Repr

/-- `Vec3::xy()`. -/
def Vec3q.xy (v : Vec3q) : Vec2q := ⟨v.x, v.y⟩

structure Vertexq where
  position : Vec3q
deriving DecidableEq, Repr

/-- `Polygon` from src/main.rs: a vertex buffer plus a `u16` index buffer;
every consecutive triple of indices is one fan triangle. -/
structure Polygon where
  vertices : List Vertexq
  indices : List ℕ
deriving DecidableEq, Repr

/-- `indices.chunks_exact(3)`: consecutive index triples, remainder dropped. -/
def chunks3 : List ℕ → List (ℕ × ℕ × ℕ)
  | i :: j :: k :: rest => (i, j, k) :: chunks3 rest
  | _ => []

/-- The triangles `(a, b, c)` traversed by `Polygon::contains`
(`self.vertices[chunk[i] as usize].position.xy()`; out-of-range indices,
which panic in the source, are mapped to the origin). -/
def Polygon.fanTriangles (poly : Polygon) : List (Vec2q × Vec2q × Vec2q) :=
  (chunks3 poly.indices).map (fun ch =>
    ((poly.vertices.getD ch.1 ⟨⟨0, 0, 0⟩⟩).position.xy,
     (poly.vertices.getD ch.2.1 ⟨⟨0, 0, 0⟩⟩).position.xy,
     (poly.vertices.getD ch.2.2 ⟨⟨0, 0, 0⟩⟩).position.xy))

/-- `Polygon::contains` from src/main.rs: true iff some fan triangle
passes `triangle_contains`. -/
def Polygon.contains (poly : Polygon) (p : Vec2q) : Prop :=
  ∃ tri ∈ poly.fanTriangles, triangle_contains p tri.1 tri.2.1 tri.2.2

instance (poly : Polygon) (p : Vec2q) : Decidable (poly.contains p) := by
  unfold Polygon.contains; infer_instance

/-- A point on the closed boundary of triangle `a b c`. -/
def OnTriBoundary (p a b c : Vec2q) : Prop :=
  onSeg a b p ∨ onSeg b c p ∨ onSeg c a p

/-- C9 counterexample: the point (2,2) lies exactly on the boundary of the
first fan triangle ((0,0),(4,0),(0,4)) of a polygon, yet `Polygon::contains`
reports it as contained, because it is strictly inside the second fan
triangle ((0,0),(8,0),(0,8)). -/
theorem polygon_contains_boundary_point_cex :
    OnTriBoundary ⟨2, 2⟩ ⟨0, 0⟩ ⟨4, 0⟩ ⟨0, 4⟩ ∧
    Polygon.fanTriangles
        ⟨[⟨⟨0, 0, 0⟩⟩, ⟨⟨4, 0, 0⟩⟩, ⟨⟨0, 4, 0⟩⟩, ⟨⟨8, 0, 0⟩⟩, ⟨⟨0, 8, 0⟩⟩],
          [0, 1, 2, 0, 3, 4]⟩ =
      [(⟨0, 0⟩, ⟨4, 0⟩, ⟨0, 4⟩), (⟨0, 0⟩, ⟨8, 0⟩, ⟨0, 8⟩)] ∧
    Polygon.contains
      ⟨[⟨⟨0, 0, 0⟩⟩, ⟨⟨4, 0, 0⟩⟩, ⟨⟨0, 4, 0⟩⟩, ⟨⟨8, 0, 0⟩⟩, ⟨⟨0, 8, 0⟩⟩],
        [0, 1, 2, 0, 3, 4]⟩ ⟨2, 2⟩ := by
  refine ⟨Or.inr (Or.inl ⟨1 / 2, by norm_num, by norm_num, ?_⟩),
    by with_unfolding_all decide, by with_unfolding_all decide⟩
  refine Vec2q.ext_iff.2 ⟨?_, ?_⟩ <;> (simp; norm_num)

/-- C9 (amended): the strictly positive barycentric test rejects every point
on the boundary of the triangle being tested, so a point on the boundary of
every fan triangle — in particular a common vertex of all fan triangles,
such as the apex of a visibility fan — is reported as not contained.  A
point on the boundary of merely one fan triangle may still be contained via
a different triangle (see the counterexample). -/
theorem polygon_strict_barycentric_boundary :
    (∀ p a b c : Vec2q, OnTriBoundary p a b c → ¬ triangle_contains p a b c) ∧
    (∀ (poly : Polygon) (p : Vec2q),
      (∀ tri ∈ poly.fanTriangles, OnTriBoundary p tri.1 tri.2.1 tri.2.2) →
      ¬ poly.contains p) ∧
    (∀ (poly : Polygon) (p : Vec2q),
      (∀ tri ∈ poly.fanTriangles, p = tri.1 ∨ p = tri.2.1 ∨ p = tri.2.2) →
      ¬ poly.contains p) := by
  have hvert : ∀ (p a b c : Vec2q), (p = a ∨ p = b ∨ p = c) → OnTriBoundary p a b c := by
    rintro p a b c (rfl | rfl | rfl)
    · exact Or.inl ⟨0, le_refl 0, by norm_num, by
        refine Vec2q.ext_iff.2 ⟨?_, ?_⟩ <;> (simp; try ring)⟩
    · exact Or.inl ⟨1, by norm_num, le_refl 1, by
        refine Vec2q.ext_iff.2 ⟨?_, ?_⟩ <;> (simp; try ring)⟩
    · exact Or.inr (Or.inl ⟨1, by norm_num, le_refl 1, by
        refine Vec2q.ext_iff.2 ⟨?_, ?_⟩ <;> (simp; try ring)⟩)
  have hmain : ∀ p a b c : Vec2q, OnTriBoundary p a b c → ¬ triangle_contains p a b c := by
    rintro p a b c (⟨t, -, -, hp⟩ | ⟨t, -, -, hp⟩ | ⟨t, -, -, hp⟩) ⟨h1, h2, h3⟩
    · have hz : Vec2q.perp_dot (p - a) (p - b) = 0 := by
        subst hp
        simp only [Vec2q.perp_dot, Vec2q.add_x, Vec2q.add_y, Vec2q.sub_x, Vec2q.sub_y,
          Vec2q.smul_x, Vec2q.smul_y]
        ring
      rw [hz, zero_div] at h3
      exact lt_irrefl 0 h3
    · have hz : Vec2q.perp_dot (p - b) (p - c) = 0 := by
        subst hp
        simp only [Vec2q.perp_dot, Vec2q.add_x, Vec2q.add_y, Vec2q.sub_x, Vec2q.sub_y,
          Vec2q.smul_x, Vec2q.smul_y]
        ring
      rw [hz, zero_div] at h1
      exact lt_irrefl 0 h1
    · have hz : Vec2q.perp_dot (p - c) (p - a) = 0 := by
        subst hp
        simp only [Vec2q.perp_dot, Vec2q.add_x, Vec2q.add_y, Vec2q.sub_x, Vec2q.sub_y,
          Vec2q.smul_x, Vec2q.smul_y]
        ring
      rw [hz, zero_div] at h2
      exact lt_irrefl 0 h2
  refine ⟨hmain, fun poly p hall => ?_, fun poly p hall => ?_⟩
  · rintro ⟨tri, htri, hcont⟩
    exact hmain p tri.1 tri.2.1 tri.2.2 (hall tri htri) hcont
  · rintro ⟨tri, htri, hcont⟩
    exact hmain p tri.1 tri.2.1 tri.2.2 (hvert _ _ _ _ (hall tri htri)) hcont

/-- C9 witness: the apex (0,0) of the one-triangle fan over
((0,0),(4,0),(0,4)) is reported as not contained. -/
theorem polygon_strict_barycentric_boundary_witness :
    ¬ Polygon.contains ⟨[⟨⟨0, 0, 0⟩⟩, ⟨⟨4, 0, 0⟩⟩, ⟨⟨0, 4, 0⟩⟩], [0, 1, 2]⟩ ⟨0, 0⟩ :=
  polygon_strict_barycentric_boundary.2.2
    ⟨[⟨⟨0, 0, 0⟩⟩, ⟨⟨4, 0, 0⟩⟩, ⟨⟨0, 4, 0⟩⟩], [0, 1, 2]⟩ ⟨0, 0⟩
    (by
      intro tri htri
      have he : Polygon.fanTriangles
          ⟨[⟨⟨0, 0, 0⟩⟩, ⟨⟨4, 0, 0⟩⟩, ⟨⟨0, 4, 0⟩⟩], [0, 1, 2]⟩ =
          [(⟨0, 0⟩, ⟨4, 0⟩, ⟨0, 4⟩)] := by with_unfolding_all decide
      rw [he, List.mem_singleton] at htri
      subst htri
      exact Or.inl rfl)

/-! ### Pathfinder (src/pathfinder.rs) -/

/-- Integer cell coordinate (glam `IVec2`). -/
structure IVec2q where
  x : ℤ
  y : ℤ
deriving DecidableEq, Repr

/-- Truncation toward zero: the semantics of Rust's `f32 as i32` cast used
by `Vec2::as_ivec2`. -/
def ratTrunc (q : ℚ) : ℤ := if q < 0 then ⌈q⌉ else ⌊q⌋

/-- `Pathfinder` from src/pathfinder.rs. -/
structure Pathfinder where
  cells : List Bool
  colliders_cache : List IVec2q
  cell_size : ℚ
  cells_width : ℤ
  cells_height : ℤ
deriving Repr

/-- `Pathfinder::new`: cell size 8; a cell is blocked iff some collider
rectangle contains the cell's center; blocked cells are also cached (in
row-major scan order) in `colliders_cache`. -/
def Pathfinder.new (level_width level_height : ℚ) (colliders : List Rectq) : Pathfinder :=
  let cell_size : ℚ := 8
  let cells_width := ratTrunc (level_width / cell_size)
  let cells_height := ratTrunc (level_height / cell_size)
  let scan := (List.range cells_height.toNat).flatMap (fun yn =>
    (List.range cells_width.toNat).map (fun xn => ((xn : ℤ), (yn : ℤ))))
  let blockedAt := fun (p : ℤ × ℤ) =>
    colliders.any (fun c => decide (c.containsPt
      ⟨p.1 * cell_size + cell_size / 2, p.2 * cell_size + cell_size / 2⟩))
  { cells := scan.map blockedAt
    colliders_cache := (scan.filter blockedAt).map (fun p => ⟨p.1, p.2⟩)
    cell_size := cell_size
    cells_width := cells_width
    cells_height := cells_height }

/-- `Pathfinder::is_oob`. -/
def Pathfinder.is_oob (pf : Pathfinder) (p : IVec2q) : Prop :=
  p.x < 0 ∨ p.x ≥ pf.cells_width ∨ p.y < 0 ∨ p.y ≥ pf.cells_height

instance (pf : Pathfinder) (p : IVec2q) : Decidable (pf.is_oob p) := by
  unfold Pathfinder.is_oob; infer_instance

/-- `Pathfinder::vec2_to_cell`: `(v / cell_size).as_ivec2()`. -/
def Pathfinder.vec2_to_cell (pf : Pathfinder) (v : Vec2q) : IVec2q :=
  ⟨ratTrunc (v.x / pf.cell_size), ratTrunc (v.y / pf.cell_size)⟩

/-- `Pathfinder::cell_to_vec2`: cell center in world coordinates. -/
def Pathfinder.cell_to_vec2 (pf : Pathfinder) (v : IVec2q) : Vec2q :=
  ⟨v.x * pf.cell_size + pf.cell_size / 2, v.y * pf.cell_size + pf.cell_size / 2⟩

/-- `Pathfinder::is_rect_colliding`: does any cached blocked cell's rectangle
overlap the given rectangle? -/
def Pathfinder.is_rect_colliding (pf : Pathfinder) (rect : Rectq) : Prop :=
  ∃ c ∈ pf.colliders_cache,
    (Rectq.mk (c.x * pf.cell_size) (c.y * pf.cell_size) pf.cell_size pf.cell_size).overlaps rect

instance (pf : Pathfinder) (rect : Rectq) : Decidable (pf.is_rect_colliding rect) := by
  unfold Pathfinder.is_rect_colliding; infer_instance

/-- The rectangle with the mover's size whose center is the given point
(the `Rect { x: p.x - rect.w/2.0, y: p.y - rect.h/2.0, ..rect }` pattern
used throughout `get_path` and `cleanup_path_redundancies`). -/
def rectAt (rect : Rectq) (p : Vec2q) : Rectq :=
  ⟨p.x - rect.w / 2, p.y - rect.h / 2, rect.w, rect.h⟩

/-- Decide `a ≤ b · √m` for rationals (meaningful for `m ≥ 0`), by sign
analysis and squaring. -/
def leMulSqrt (a b m : ℚ) : Bool :=
  if 0 ≤ b then decide (a ≤ 0 ∨ a ^ 2 ≤ b ^ 2 * m)
  else decide (a < 0 ∧ b ^ 2 * m ≤ a ^ 2)

/-- Decide `a ≥ b · √m`. -/
def geMulSqrt (a b m : ℚ) : Bool := leMulSqrt (-a) (-b) m

/-- Decide `a < b · √m`. -/
def ltMulSqrt (a b m : ℚ) : Bool := !geMulSqrt a b m

/-- The while-guard of `is_direct_path_blocked` at sweep step `k`:
`(to - rect.center()).signum() == orig_dist.signum()` componentwise, with
`signum 0 = 1` (the exact-arithmetic reading of `f32::signum(+0.0)`).
At step `k` the remaining offset is `d · (√m - k·cs) / √m`, so the guard
holds per component iff the component is `0`, or is positive and
`k·cs ≤ √m`, or is negative and `k·cs < √m`. -/
def sweepGuard (d : Vec2q) (cs m : ℚ) (k : ℕ) : Bool :=
  (decide (d.x = 0) || (decide (0 < d.x) && leMulSqrt ((k : ℚ) * cs) 1 m) ||
    (decide (d.x < 0) && ltMulSqrt ((k : ℚ) * cs) 1 m)) &&
  (decide (d.y = 0) || (decide (0 < d.y) && leMulSqrt ((k : ℚ) * cs) 1 m) ||
    (decide (d.y < 0) && ltMulSqrt ((k : ℚ) * cs) 1 m))

/-- `is_rect_colliding` applied to the swept rectangle at step `k`, whose
top-left corner is `rect + (k·cs/√m)·d`; each of the four closed-range
`overlaps` comparisons is of the form `a ≤ b·√m` after multiplying through
by `√m > 0`. -/
def sweptRectCollides (pf : Pathfinder) (rect : Rectq) (d : Vec2q) (m : ℚ) (k : ℕ) : Bool :=
  pf.colliders_cache.any (fun c =>
    geMulSqrt ((k : ℚ) * pf.cell_size * d.x)
      (c.x * pf.cell_size - rect.x - rect.w) m &&
    leMulSqrt ((k : ℚ) * pf.cell_size * d.x)
      (c.x * pf.cell_size + pf.cell_size - rect.x) m &&
    geMulSqrt ((k : ℚ) * pf.cell_size * d.y)
      (c.y * pf.cell_size - rect.y - rect.h) m &&
    leMulSqrt ((k : ℚ) * pf.cell_size * d.y)
      (c.y * pf.cell_size + pf.cell_size - rect.y) m)

/-- The while loop of `is_direct_path_blocked`: at each step whose guard
holds, test the swept rectangle against the blocked cells, else stop.  The
fuel is only a termination backstop: with `cell_size = 8` (as built by
`Pathfinder::new`) the guard fails for every `k > √m / 8`, which the chosen
initial fuel `⌈m⌉ + 3` strictly dominates, so the fuel never runs out. -/
def sweepLoop (pf : Pathfinder) (rect : Rectq) (d : Vec2q) (m : ℚ) :
    ℕ → ℕ → Bool
  | _, 0 => false
  | k, fuel + 1 =>
    if sweepGuard d pf.cell_size m k then
      sweptRectCollides pf rect d m k || sweepLoop pf rect d m (k + 1) fuel
    else false

/-- `Pathfinder::is_direct_path_blocked`: slide the rectangle from its
current position toward `to` in `cell_size`-length steps along the
normalized direction, returning true iff a blocked cell is hit while the
remaining offset keeps the sign of the original offset.  `try_normalize`
fails exactly on the zero vector, in which case the result is `false`.
(`tpt` is the source's `to` argument, renamed because `to` is reserved.) -/
def Pathfinder.is_direct_path_blocked (pf : Pathfinder) (rect : Rectq) (tpt : Vec2q) : Bool :=
  if tpt - rect.center = (⟨0, 0⟩ : Vec2q) then false
  else
    sweepLoop pf rect (tpt - rect.center) ((tpt - rect.center).length_squared)
      0 (⌈(tpt - rect.center).length_squared⌉.toNat + 3)

/-- The outer while loop of `cleanup_path_redundancies`.  `base` is the last
rectangle pushed onto `new_path`; the inner while loop consumes the maximal
prefix of `path` whose waypoints each pass `!is_direct_path_blocked(base, p)`
(checked one at a time against the fixed `base`), and the source's
`assert!(last.is_some())` (firing when that prefix is empty) is modeled by
returning `none`. -/
def cleanupGo (pf : Pathfinder) (rect : Rectq) (base : Rectq) (path : List Vec2q) :
    Option (List Rectq) :=
  if hp : path = [] then some [base]
  else
    match hlast : (path.takeWhile (fun p => !pf.is_direct_path_blocked base p)).getLast? with
    | none => none
    | some lastP =>
      (cleanupGo pf rect (rectAt rect lastP)
        (path.dropWhile (fun p => !pf.is_direct_path_blocked base p))).map
        (fun tail => base :: tail)
termination_by path.length
decreasing_by
  have htw : path.takeWhile (fun p => !pf.is_direct_path_blocked base p) ≠ [] := by
    intro h
    rw [h] at hlast
    simp at hlast
  have hsplit := List.takeWhile_append_dropWhile
    (p := fun p => !pf.is_direct_path_blocked base p) (l := path)
  have hlen := congrArg List.length hsplit
  rw [List.length_append] at hlen
  have hpos := List.length_pos.2 htw
  omega

/-- `Pathfinder::cleanup_path_redundancies`: repeatedly extend a straight
hop to the farthest later waypoint still passing the swept-rectangle check,
then emit the centers of the retained rectangles.  An empty input panics in
the source (`path.remove(0)`), modeled as `none`. -/
def Pathfinder.cleanup_path_redundancies (pf : Pathfinder) (rect : Rectq)
    (path : List Vec2q) : Option (List Vec2q) :=
  match path with
  | [] => none
  | first :: rest =>
    (cleanupGo pf rect (rectAt rect first) rest).map (List.map Rectq.center)

/-- The A* heuristic `h(p) = (to_cell - p).length_squared()`. -/
def hScore (goal p : IVec2q) : ℤ := (goal.x - p.x) ^ 2 + (goal.y - p.y) ^ 2

/-- The f-score of a node as read by the heap comparator
(`f_scores.borrow()[self]`; every heap member has an entry). -/
def fval (f : List (IVec2q × ℤ)) (p : IVec2q) : ℤ := (List.lookup p f).getD 0

/-- Pop an element with minimal current f-score (the effect of the source's
`BinaryHeap` whose reversed comparator reads the mutable `f_scores` table;
ties resolved deterministically in favor of the most recently pushed). -/
def popMinF (f : List (IVec2q × ℤ)) : List IVec2q → Option (IVec2q × List IVec2q)
  | [] => none
  | h :: t =>
    match popMinF f t with
    | none => some (h, t)
    | some (m, rest) =>
      if fval f h ≤ fval f m then some (h, t) else some (m, h :: rest)

/-- One neighbor-relaxation step of the A* expansion (the body of the
`for x / for y` loops): skip out-of-bounds neighbors and neighbors whose
swept-rectangle move is blocked; otherwise relax with uniform edge cost 1
against `g_scores.get(&neib).unwrap_or(&i32::MAX)`. -/
def astarStep (pf : Pathfinder) (goal curr : IVec2q) (curr_rect : Rectq)
    (st : List IVec2q × List (IVec2q × ℤ) × List (IVec2q × ℤ) × List (IVec2q × IVec2q))
    (off : IVec2q) :
    List IVec2q × List (IVec2q × ℤ) × List (IVec2q × ℤ) × List (IVec2q × IVec2q) :=
  let pos : IVec2q := ⟨curr.x + off.x, curr.y + off.y⟩
  if pf.is_oob pos then st
  else if pf.is_direct_path_blocked curr_rect (pf.cell_to_vec2 pos) then st
  else
    let heap := st.1
    let g := st.2.1
    let f := st.2.2.1
    let cf := st.2.2.2
    let neib_g := (List.lookup curr g).getD 0 + 1
    if neib_g < (List.lookup pos g).getD 2147483647 then
      (pos :: heap, (pos, neib_g) :: g, (pos, neib_g + hScore goal pos) :: f,
        (pos, curr) :: cf)
    else st

/-- The neighbor offsets kept by the `for x in -1..=1 { for y in -1..=1 }`
loops after skipping the center and the diagonals, in source order. -/
def neighborOffsets : List IVec2q := [⟨-1, 0⟩, ⟨0, -1⟩, ⟨0, 1⟩, ⟨1, 0⟩]

/-- The A* main loop of `get_path`: pop a minimal-f node, stop on the goal
(returning the `came_from` table), else relax the four orthogonal
neighbors.  The source loop always terminates (each push strictly decreases
some node's g-score, which is a nonnegative integer bounded by the cell
count); the fuel is a termination backstop chosen large enough that it
never runs out for grids built by `Pathfinder::new`. -/
def astarLoop (pf : Pathfinder) (rect : Rectq) (goal : IVec2q) :
    ℕ → List IVec2q → List (IVec2q × ℤ) → List (IVec2q × ℤ) →
    List (IVec2q × IVec2q) → Option (List (IVec2q × IVec2q))
  | 0, _, _, _, _ => none
  | fuel + 1, heap, g, f, cf =>
    match popMinF f heap with
    | none => none
    | some (curr, heap1) =>
      if curr = goal then some cf
      else
        let curr_rect := rectAt rect (pf.cell_to_vec2 curr)
        let st := neighborOffsets.foldl (astarStep pf goal curr curr_rect)
          (heap1, g, f, cf)
        astarLoop pf rect goal fuel st.1 st.2.1 st.2.2.1 st.2.2.2

/-- Walk the `came_from` parent links backward from a cell (the
`while let Some(n) = came_from.get(...)` loop); the fuel `cf.length + 1`
suffices because the parent table is acyclic (g-scores strictly decrease
along parent links). -/
def walkParents (cf : List (IVec2q × IVec2q)) : ℕ → IVec2q → List IVec2q
  | 0, _ => []
  | fuel + 1, p =>
    match List.lookup p cf with
    | none => []
    | some par => par :: walkParents cf fuel par

/-- The candidate goal cells of `get_path`: the target cell followed by its
four orthogonal neighbors, in source order. -/
def Pathfinder.toCandidates (pf : Pathfinder) (tpt : Vec2q) : List IVec2q :=
  let tc := pf.vec2_to_cell tpt
  [tc, ⟨tc.x + 1, tc.y⟩, ⟨tc.x - 1, tc.y⟩, ⟨tc.x, tc.y + 1⟩, ⟨tc.x, tc.y - 1⟩]

/-- The raw A* cell path of `get_path` (before world conversion and
simplification): run the search from the mover's center cell and
reconstruct the start-to-goal cell list. -/
def Pathfinder.astar_cell_path (pf : Pathfinder) (rect : Rectq) (goal : IVec2q) :
    Option (List IVec2q) :=
  let from_cell := pf.vec2_to_cell rect.center
  let cellCount := pf.cells_width.toNat * pf.cells_height.toNat
  match astarLoop pf rect goal ((cellCount + 1) * (cellCount + 1) + 1) [from_cell]
      [(from_cell, 0)] [(from_cell, hScore goal from_cell)] [] with
  | none => none
  | some cf => some ((goal :: walkParents cf (cf.length + 1) goal).reverse)

/-- `Pathfinder::get_path`: fail if the start cell is out of bounds; pick
the first viable goal among the target cell and its four orthogonal
neighbors (viable = in bounds and the mover's rectangle centered on the
cell is collision-free), failing if none is; run A*; convert the cell path
to world waypoints and simplify it. -/
def Pathfinder.get_path (pf : Pathfinder) (rect : Rectq) (tpt : Vec2q) :
    Option (List Vec2q) :=
  if pf.is_oob (pf.vec2_to_cell rect.center) then none
  else
    match (pf.toCandidates tpt).find? (fun p =>
        !decide (pf.is_oob p) &&
        !decide (pf.is_rect_colliding (rectAt rect (pf.cell_to_vec2 p)))) with
    | none => none
    | some to_cell =>
      match pf.astar_cell_path rect to_cell with
      | none => none
      | some cellPath =>
        pf.cleanup_path_redundancies rect (cellPath.map pf.cell_to_vec2)

/-! ### Claim C4: unreachable target -/

/-- C4: `get_path` tries the target cell and its four orthogonal neighbors
as goals; if every candidate is out of bounds or collides with the mover's
rectangle footprint placed at the candidate's center, it returns `none`. -/
theorem get_path_unreachable_none :
    ∀ (pf : Pathfinder) (rect : Rectq) (tpt : Vec2q),
      (∀ c ∈ pf.toCandidates tpt,
        pf.is_oob c ∨ pf.is_rect_colliding (rectAt rect (pf.cell_to_vec2 c))) →
      pf.get_path rect tpt = none := by
  intro pf rect tpt hall
  unfold Pathfinder.get_path
  split
  · rfl
  · have hfind : (pf.toCandidates tpt).find? (fun p =>
        !decide (pf.is_oob p) &&
        !decide (pf.is_rect_colliding (rectAt rect (pf.cell_to_vec2 p)))) = none := by
      rw [List.find?_eq_none]
      intro p hp
      rcases hall p hp with h | h <;> simp [h]
    rw [hfind]

/-- C4 witness: a 5×5-cell grid whose middle 3×3 cells are blocked; the
target (20,20) sits in the middle, so the target cell and all four
neighbors collide and `get_path` returns `none`. -/
theorem get_path_unreachable_none_witness :
    Pathfinder.get_path (Pathfinder.new 40 40 [⟨8, 8, 24, 24⟩]) ⟨18, 18, 4, 4⟩ ⟨20, 20⟩ =
      none :=
  get_path_unreachable_none (Pathfinder.new 40 40 [⟨8, 8, 24, 24⟩]) ⟨18, 18, 4, 4⟩ ⟨20, 20⟩
    (by with_unfolding_all decide)

/-! ### Claim C10: direct-path check degenerates at the rectangle's center -/

/-- C10: when the target point is exactly the rectangle's center, the
direction cannot be normalized and `is_direct_path_blocked` returns `false`,
even if the rectangle currently overlaps a blocked cell. -/
theorem direct_path_blocked_at_center_false :
    ∀ (pf : Pathfinder) (rect : Rectq),
      pf.is_rect_colliding rect →
      pf.is_direct_path_blocked rect rect.center = false := by
  intro pf rect _
  unfold Pathfinder.is_direct_path_blocked
  rw [if_pos (Vec2q.ext_iff.2 ⟨by simp, by simp⟩)]

/-- C10 witness: a rectangle sitting squarely on a blocked cell is
`is_rect_colliding`, yet the direct-path check toward its own center
reports unblocked. -/
theorem direct_path_blocked_at_center_false_witness :
    Pathfinder.is_rect_colliding (Pathfinder.new 16 16 [⟨0, 0, 16, 16⟩]) ⟨0, 0, 4, 4⟩ ∧
    Pathfinder.is_direct_path_blocked (Pathfinder.new 16 16 [⟨0, 0, 16, 16⟩]) ⟨0, 0, 4, 4⟩
      (Rectq.center ⟨0, 0, 4, 4⟩) = false :=
  ⟨by with_unfolding_all decide,
    direct_path_blocked_at_center_false (Pathfinder.new 16 16 [⟨0, 0, 16, 16⟩]) ⟨0, 0, 4, 4⟩
      (by with_unfolding_all decide)⟩

/-! ### Claim C5: path simplification -/

theorem rectAt_center (rect : Rectq) (p : Vec2q) : (rectAt rect p).center = p := by
  refine Vec2q.ext_iff.2 ⟨?_, ?_⟩ <;> (simp [rectAt, Rectq.center]; try ring)

theorem chain_imp_mem {α : Type} {R S : α → α → Prop} :
    ∀ (l : List α), (∀ a ∈ l, ∀ b ∈ l, R a b → S a b) → List.Chain' R l →
      List.Chain' S l := by
  intro l
  induction l with
  | nil => intro _ _; simp
  | cons a t ih =>
    intro himp hch
    cases t with
    | nil => simp
    | cons b t2 =>
      rw [List.chain'_cons] at hch ⊢
      refine ⟨himp a (by simp) b (by simp) hch.1, ih ?_ hch.2⟩
      intro x hx y hy hR
      exact himp x (List.mem_cons_of_mem _ hx) y (List.mem_cons_of_mem _ hy) hR

theorem getLast?_mem_list {α : Type} : ∀ {l : List α} {a : α}, l.getLast? = some a → a ∈ l := by
  intro l
  induction l with
  | nil => intro a h; simp at h
  | cons x t ih =>
    intro a h
    cases t with
    | nil => simp at h; simp [h]
    | cons y t2 =>
      rw [List.getLast?_cons_cons] at h
      exact List.mem_cons_of_mem _ (ih h)

/-- Structural facts about the `cleanup_path_redundancies` outer loop: the
output keeps at most one rectangle per consumed waypoint (plus the base),
starts with the base, consists of mover-sized rectangles centered on
waypoints, and every consecutive pair passes the direct-path check. -/
theorem cleanupGo_spec (pf : Pathfinder) (rect : Rectq) :
    ∀ (n : ℕ) (path : List Vec2q), path.length ≤ n →
    ∀ (base : Rectq) (out : List Rectq),
      (∃ p0, base = rectAt rect p0) →
      cleanupGo pf rect base path = some out →
      out.length ≤ path.length + 1 ∧
      out.head? = some base ∧
      (∀ r ∈ out, ∃ p, r = rectAt rect p) ∧
      List.Chain' (fun r1 r2 : Rectq =>
        pf.is_direct_path_blocked r1 r2.center = false) out := by
  intro n
  induction n with
  | zero =>
    intro path hlen base out hbase h
    have hp : path = [] := List.eq_nil_of_length_eq_zero (Nat.le_zero.1 hlen)
    subst hp
    rw [cleanupGo] at h
    simp at h
    subst h
    refine ⟨by simp, rfl, ?_, by simp⟩
    intro r hr
    rw [List.mem_singleton] at hr
    exact hr ▸ hbase
  | succ n ih =>
    intro path hlen base out hbase h
    by_cases hp : path = []
    · subst hp
      rw [cleanupGo] at h
      simp at h
      subst h
      refine ⟨by simp, rfl, ?_, by simp⟩
      intro r hr
      rw [List.mem_singleton] at hr
      exact hr ▸ hbase
    · rw [cleanupGo, dif_neg hp] at h
      set pred := fun p => !pf.is_direct_path_blocked base p with hpred
      split at h
      · exact absurd h (by simp)
      · rename_i lastP hlast
        rw [Option.map_eq_some'] at h
        obtain ⟨tail, htail, rfl⟩ := h
        have htw : path.takeWhile pred ≠ [] := by
          intro hnil
          rw [hnil] at hlast
          simp at hlast
        have hsplit := List.takeWhile_append_dropWhile (p := pred) (l := path)
        have hlens := congrArg List.length hsplit
        rw [List.length_append] at hlens
        have hpos := List.length_pos.2 htw
        have hrec : (path.dropWhile pred).length ≤ n := by omega
        obtain ⟨ihlen, ihhead, ihform, ihchain⟩ :=
          ih (path.dropWhile pred) hrec (rectAt rect lastP) tail ⟨lastP, rfl⟩ htail
        have hlastmem : lastP ∈ path.takeWhile pred := getLast?_mem_list hlast
        have hlastpred : pred lastP = true := List.mem_takeWhile_imp hlastmem
        have hblk : pf.is_direct_path_blocked base lastP = false := by
          rw [hpred] at hlastpred
          simpa using hlastpred
        refine ⟨by simp; omega, rfl, ?_, ?_⟩
        · intro r hr
          rcases List.mem_cons.1 hr with rfl | hr
          · exact hbase
          · exact ihform r hr
        · rw [List.chain'_cons']
          refine ⟨?_, ihchain⟩
          intro y hy
          rw [ihhead] at hy
          cases hy
          rw [rectAt_center]
          exact hblk

/-- The guarantees of `cleanup_path_redundancies` at the waypoint level:
no more waypoints than the input, and consecutive output waypoints pass
`is_direct_path_blocked == false` for the mover placed at the earlier one. -/
theorem cleanup_spec (pf : Pathfinder) (rect : Rectq) :
    ∀ (path out : List Vec2q),
      pf.cleanup_path_redundancies rect path = some out →
      out.length ≤ path.length ∧
      List.Chain' (fun u v : Vec2q =>
        pf.is_direct_path_blocked (rectAt rect u) v = false) out := by
  intro path out h
  match path with
  | [] => simp [Pathfinder.cleanup_path_redundancies] at h
  | first :: rest =>
    simp only [Pathfinder.cleanup_path_redundancies] at h
    rw [Option.map_eq_some'] at h
    obtain ⟨orects, ho, rfl⟩ := h
    obtain ⟨hlen, hhead, hform, hchain⟩ :=
      cleanupGo_spec pf rect rest.length rest (le_refl _) (rectAt rect first) orects
        ⟨first, rfl⟩ ho
    constructor
    · simpa using hlen
    · rw [List.chain'_map]
      refine chain_imp_mem orects ?_ hchain
      intro r1 h1 r2 h2 hR
      obtain ⟨p1, rfl⟩ := hform r1 h1
      rw [rectAt_center]
      exact hR

/-- C5: every path returned by `get_path` is the simplification of a raw
path, has no more waypoints than the raw path, and every consecutive pair
of kept waypoints passes `is_direct_path_blocked == false` for the mover's
rectangle placed at the earlier waypoint. -/
theorem get_path_simplification :
    ∀ (pf : Pathfinder) (rect : Rectq) (tpt : Vec2q) (out : List Vec2q),
      pf.get_path rect tpt = some out →
      ∃ raw : List Vec2q,
        pf.cleanup_path_redundancies rect raw = some out ∧
        out.length ≤ raw.length ∧
        List.Chain' (fun u v : Vec2q =>
          pf.is_direct_path_blocked (rectAt rect u) v = false) out := by
  intro pf rect tpt out h
  unfold Pathfinder.get_path at h
  split at h
  · exact absurd h (by simp)
  · split at h
    · exact absurd h (by simp)
    · split at h
      · exact absurd h (by simp)
      · obtain ⟨hlen, hchain⟩ := cleanup_spec pf rect _ _ h
        exact ⟨_, h, hlen, hchain⟩

/-- C5 witness: the two-cell open grid path from (0,0) to (12,4). -/
theorem get_path_simplification_witness :
    ∃ raw : List Vec2q,
      (Pathfinder.new 16 8 []).cleanup_path_redundancies ⟨-2, -2, 4, 4⟩ raw =
        some [⟨4, 4⟩, ⟨12, 4⟩] ∧
      ([⟨4, 4⟩, ⟨12, 4⟩] : List Vec2q).length ≤ raw.length ∧
      List.Chain' (fun u v : Vec2q =>
        (Pathfinder.new 16 8 []).is_direct_path_blocked (rectAt ⟨-2, -2, 4, 4⟩ u) v = false)
        [⟨4, 4⟩, ⟨12, 4⟩] :=
  get_path_simplification (Pathfinder.new 16 8 []) ⟨-2, -2, 4, 4⟩ ⟨12, 4⟩ [⟨4, 4⟩, ⟨12, 4⟩]
    (by with_unfolding_all decide)

/-! ### Claim C6: open-grid path from (0,0) to (80,80) -/

/-- C6 counterexample: on the open 128×128 level (cell size 8, no blocked
cells), the mover centered at (0,0) and target (80,80) span cells (0,0) to
(10,10) — Manhattan cell distance 20 — but the path returned by `get_path`
has exactly 2 waypoints (neither 20 nor 21), because the post-processing
collapses the raw grid path. -/
theorem get_path_open_grid_cex :
    (Pathfinder.new 128 128 []).vec2_to_cell (Rectq.center ⟨-4, -4, 8, 8⟩) = ⟨0, 0⟩ ∧
    (Pathfinder.new 128 128 []).vec2_to_cell ⟨80, 80⟩ = ⟨10, 10⟩ ∧
    (Pathfinder.get_path (Pathfinder.new 128 128 []) ⟨-4, -4, 8, 8⟩ ⟨80, 80⟩).map
      List.length = some 2 ∧
    (2 : ℕ) ≠ 20 ∧ (2 : ℕ) ≠ 21 := by
  refine ⟨by with_unfolding_all decide, by with_unfolding_all decide,
    ?_, by decide, by decide⟩
  with_unfolding_all decide

/-- C6 (amended): on the open grid the path exists; the raw A* cell path
uses only orthogonal moves and visits Manhattan-distance + 1 = 21 cells,
but the returned (simplified) path is collapsed to the 2 endpoints
(4,4) and (84,84), the start and goal cell centers. -/
theorem get_path_open_grid_collapsed :
    Pathfinder.get_path (Pathfinder.new 128 128 []) ⟨-4, -4, 8, 8⟩ ⟨80, 80⟩ =
      some [⟨4, 4⟩, ⟨84, 84⟩] ∧
    (Pathfinder.astar_cell_path (Pathfinder.new 128 128 []) ⟨-4, -4, 8, 8⟩ ⟨10, 10⟩).map
      List.length = some 21 := by
  constructor
  · with_unfolding_all decide
  · with_unfolding_all decide

/-! ### Quadtree (src/quadtree.rs) and `line_rect_intersect` -/

/-- glam `Vec2::perp`: counter-clockwise perpendicular `(-y, x)`. -/
def perpq (v : Vec2q) : Vec2q := ⟨-v.y, v.x⟩

/-- `normalize` as applied by `line_rect_intersect`, whose arguments are
always axis-aligned edge vectors; for those `|v| = |v.x| + |v.y|`, so this
is exact.  The zero vector (a degenerate rectangle edge) normalizes to NaN
in the source and to `⟨0,0⟩` here; no claim depends on that value. -/
def normalizeAxis (v : Vec2q) : Vec2q :=
  ⟨v.x / (|v.x| + |v.y|), v.y / (|v.x| + |v.y|)⟩

/-- The four rectangle edges in the order `line_rect_intersect` tests them:
`(r1,r2)`, `(r1,r3)`, `(r3,r4)`, `(r2,r4)`. -/
def rectEdges (rect : Rectq) : List (Vec2q × Vec2q) :=
  [(⟨rect.x, rect.y⟩, ⟨rect.x + rect.w, rect.y⟩),
   (⟨rect.x, rect.y⟩, ⟨rect.x, rect.y + rect.h⟩),
   (⟨rect.x, rect.y + rect.h⟩, ⟨rect.x + rect.w, rect.y + rect.h⟩),
   (⟨rect.x + rect.w, rect.y⟩, ⟨rect.x + rect.w, rect.y + rect.h⟩)]

/-- The edge hits of `line_rect_intersect`: intersect the segment against
each edge and pair surviving hits with the edge's outward unit normal
`(r_i - r_j).perp().normalize()`. -/
def lineRectHits (start en : Vec2q) (rect : Rectq) : List (Vec2q × Vec2q) :=
  ((rectEdges rect).map (fun e =>
    (intersect_lines e.1 e.2 start en, normalizeAxis (perpq (e.1 - e.2))))).filterMap
    (fun e => e.1.map (fun i => (i, e.2)))

/-- Rust `Iterator::min_by` (first minimal element wins), comparing hit
distances from `start`; squared lengths compare identically to lengths. -/
def pickMinBy (start : Vec2q) (l : List (Vec2q × Vec2q)) : Option (Vec2q × Vec2q) :=
  l.foldl (fun acc e =>
    match acc with
    | none => some e
    | some m =>
      if (e.1 - start).length_squared < (m.1 - start).length_squared then some e
      else acc) none

/-- Rust `Iterator::max_by` (last maximal element wins). -/
def pickMaxBy (start : Vec2q) (l : List (Vec2q × Vec2q)) : Option (Vec2q × Vec2q) :=
  l.foldl (fun acc e =>
    match acc with
    | none => some e
    | some m =>
      if (e.1 - start).length_squared ≥ (m.1 - start).length_squared then some e
      else acc) none

/-- `line_rect_intersect` from src/geometry_utils.rs: nearest and farthest
edge hits (with their edge normals), or `none` when no edge is hit. -/
def line_rect_intersect (start en : Vec2q) (rect : Rectq) :
    Option (Vec2q × Vec2q × Vec2q × Vec2q) :=
  match pickMinBy start (lineRectHits start en rect),
      pickMaxBy start (lineRectHits start en rect) with
  | some mn, some mx => some (mn.1, mn.2, mx.1, mx.2)
  | _, _ => none

/-- The touch test shared by `QuadNode::build` leaf storage,
`QuadTree::filter_by_segment`, and `QuadNode::does_intersect`: either
endpoint inside the rectangle (half-open `contains`), or a geometric edge
crossing. -/
def segTouchesRect (a b : Vec2q) (rect : Rectq) : Bool :=
  decide (rect.containsPt a) || decide (rect.containsPt b) ||
    (line_rect_intersect a b rect).isSome

/-- `QuadNode` from src/quadtree.rs: the source stores
`children: Option<Vec<QuadNode>>` and `segments: Option<Vec<LineSeg>>` with
the invariant (asserted in `filter`) that exactly one is `Some`; the two
constructors here are those two legal states. -/
inductive QuadNode where
  | leaf (rect : Rectq) (segments : List (Vec2q × Vec2q))
  | node (rect : Rectq) (children : List QuadNode)

def QuadNode.rect : QuadNode → Rectq
  | .leaf r _ => r
  | .node r _ => r

/-- The `segments` field (`Some` exactly at leaves). -/
def QuadNode.segments : QuadNode → Option (List (Vec2q × Vec2q))
  | .leaf _ segs => some segs
  | .node _ _ => none

/-- `QuadNode::filter`: prune subtrees whose rectangle fails `filter_fn`,
return the union of surviving leaves' segment lists. -/
def QuadNode.filter (filter_fn : Rectq → Bool) : QuadNode → List (Vec2q × Vec2q)
  | .leaf r segs => if filter_fn r then segs else []
  | .node r children =>
    if filter_fn r then children.attach.flatMap (fun c => c.1.filter filter_fn)
    else []
decreasing_by
  simp_wf
  have := List.sizeOf_lt_of_mem c.2
  omega

/-- `QuadNode::build`: subdivide into four equal quadrants (in the source's
`h`-outer/`v`-inner order) until the rectangle's squared diagonal is at most
`min_size`'s; leaves store every segment touching their rectangle.  The
`fuel` is a termination backstop for the embedding: in exact arithmetic the
source recursion would not terminate when `min_size` is zero (f32 halving
underflows instead), and every claim below holds for every fuel. -/
def QuadNode.build (fuel : ℕ) (rect : Rectq) (min_size : Vec2q)
    (line_segments : List (Vec2q × Vec2q)) : QuadNode :=
  if fuel = 0 ∨
      (⟨rect.w, rect.h⟩ : Vec2q).length_squared ≤ min_size.length_squared then
    .leaf rect (line_segments.filter (fun li => segTouchesRect li.1 li.2 rect))
  else
    match fuel with
    | 0 => .leaf rect (line_segments.filter (fun li => segTouchesRect li.1 li.2 rect))
    | fuel' + 1 =>
      .node rect
        [QuadNode.build fuel' ⟨rect.x, rect.y, rect.w / 2, rect.h / 2⟩ min_size line_segments,
         QuadNode.build fuel' ⟨rect.x, rect.y + rect.h / 2, rect.w / 2, rect.h / 2⟩
           min_size line_segments,
         QuadNode.build fuel' ⟨rect.x + rect.w / 2, rect.y, rect.w / 2, rect.h / 2⟩
           min_size line_segments,
         QuadNode.build fuel' ⟨rect.x + rect.w / 2, rect.y + rect.h / 2, rect.w / 2, rect.h / 2⟩
           min_size line_segments]

structure QuadTree where
  root : QuadNode

/-- `QuadTree::build`. -/
def QuadTree.build (fuel : ℕ) (rect : Rectq) (min_size : Vec2q)
    (line_segments : List (Vec2q × Vec2q)) : QuadTree :=
  ⟨QuadNode.build fuel rect min_size line_segments⟩

/-- `QuadTree::filter_by_segment`. -/
def QuadTree.filter_by_segment (t : QuadTree) (seg : Vec2q × Vec2q) :
    List (Vec2q × Vec2q) :=
  t.root.filter (fun rect => segTouchesRect seg.1 seg.2 rect)

/-- The node test of `QuadTree::filter_by_radius`: walk from `pos` toward
the node rectangle's center by `min(dist_to_center, radius)` and test
half-open containment of the reached point.  With `v = center - pos` and
`m = |v|²`: if `v = 0` the walk stays at `pos`; if `radius ≥ √m` it reaches
the center; otherwise the reached point is `pos + (radius/√m)·v`, whose
containment comparisons are decided through `leMulSqrt`. -/
def radius_filter_fn (pos : Vec2q) (radius : ℚ) (rect : Rectq) : Bool :=
  if rect.center - pos = (⟨0, 0⟩ : Vec2q) then decide (rect.containsPt pos)
  else if geMulSqrt radius 1 ((rect.center - pos).length_squared) then
    decide (rect.containsPt rect.center)
  else
    geMulSqrt (radius * (rect.center - pos).x) (rect.x - pos.x)
      ((rect.center - pos).length_squared) &&
    ltMulSqrt (radius * (rect.center - pos).x) (rect.x + rect.w - pos.x)
      ((rect.center - pos).length_squared) &&
    geMulSqrt (radius * (rect.center - pos).y) (rect.y - pos.y)
      ((rect.center - pos).length_squared) &&
    ltMulSqrt (radius * (rect.center - pos).y) (rect.y + rect.h - pos.y)
      ((rect.center - pos).length_squared)

/-- `QuadTree::filter_by_radius`. -/
def QuadTree.filter_by_radius (t : QuadTree) (pos : Vec2q) (radius : ℚ) :
    List (Vec2q × Vec2q) :=
  t.root.filter (radius_filter_fn pos radius)

/-- Nearest point of a rectangle to a point (coordinate clamp): the
reference notion the spec and claim C8 appeal to. -/
def nearestPointInRect (r : Rectq) (p : Vec2q) : Vec2q :=
  ⟨min (max p.x r.x) (r.x + r.w), min (max p.y r.y) (r.y + r.h)⟩

/-! ### Claim C8: `filter_by_radius` node test -/

/-- C8 counterexample: a leaf-rooted quadtree over [0,8]² storing one
segment.  The query point (12,20) with radius 13 is within 13 of the
rectangle by nearest-point-in-rect (squared distance 160 ≤ 169), yet
`filter_by_radius` does not descend into the node (returns the empty set),
because the walk-toward-center point at distance 13 is still outside the
rectangle. -/
theorem filter_by_radius_not_nearest_point :
    (QuadTree.build 1 ⟨0, 0, 8, 8⟩ ⟨16, 16⟩ [(⟨1, 1⟩, ⟨2, 2⟩)]).root.segments =
      some [(⟨1, 1⟩, ⟨2, 2⟩)] ∧
    (nearestPointInRect ⟨0, 0, 8, 8⟩ ⟨12, 20⟩ - ⟨12, 20⟩).length_squared ≤ 13 ^ 2 ∧
    QuadTree.filter_by_radius
      (QuadTree.build 1 ⟨0, 0, 8, 8⟩ ⟨16, 16⟩ [(⟨1, 1⟩, ⟨2, 2⟩)]) ⟨12, 20⟩ 13 = [] := by
  refine ⟨by with_unfolding_all decide, by with_unfolding_all decide,
    by with_unfolding_all decide⟩

/-- C8 (amended): `filter_by_radius` descends into a node iff the node's
rectangle (half-open) contains the point reached by walking from the query
point toward the rectangle's center by `min(dist_to_center, radius)` — the
test implemented by `radius_filter_fn` — not the nearest-point-in-rect
criterion.  In particular every node whose center is within the (positive)
radius is descended into, and a whole tree whose root fails the test yields
the empty set. -/
theorem filter_by_radius_center_walk :
    (∀ (pos : Vec2q) (radius : ℚ) (rect : Rectq),
      0 < rect.w → 0 < rect.h → 0 < radius →
      (rect.center - pos).length_squared ≤ radius ^ 2 →
      radius_filter_fn pos radius rect = true) ∧
    (∀ (t : QuadTree) (pos : Vec2q) (radius : ℚ),
      radius_filter_fn pos radius t.root.rect = false →
      t.filter_by_radius pos radius = []) := by
  constructor
  · intro pos radius rect hw hh hr hdist
    unfold radius_filter_fn
    by_cases hz : rect.center - pos = (⟨0, 0⟩ : Vec2q)
    · rw [if_pos hz]
      have hx : rect.center.x = pos.x := by
        have := congrArg Vec2q.x hz
        simp at this
        linarith
      have hy : rect.center.y = pos.y := by
        have := congrArg Vec2q.y hz
        simp at this
        linarith
      rw [decide_eq_true_eq]
      refine ⟨?_, ?_, ?_, ?_⟩ <;>
        (first
          | (rw [← hx]; simp [Rectq.center]; linarith)
          | (rw [← hy]; simp [Rectq.center]; linarith))
    · rw [if_neg hz]
      have hge : geMulSqrt radius 1 ((rect.center - pos).length_squared) = true := by
        unfold geMulSqrt leMulSqrt
        rw [if_neg (by norm_num : ¬(0:ℚ) ≤ -1)]
        rw [decide_eq_true_eq]
        constructor
        · linarith
        · calc ((-1 : ℚ)) ^ 2 * (rect.center - pos).length_squared
              = (rect.center - pos).length_squared := by ring
            _ ≤ radius ^ 2 := hdist
            _ = (-radius) ^ 2 := by ring
      rw [hge]
      simp only [if_true]
      rw [decide_eq_true_eq]
      refine ⟨by simp [Rectq.center]; linarith, by simp [Rectq.center]; linarith,
        by simp [Rectq.center]; linarith, by simp [Rectq.center]; linarith⟩
  · intro t pos radius hroot
    unfold QuadTree.filter_by_radius
    cases h : t.root with
    | leaf r segs =>
      have hr : r = t.root.rect := by rw [h]; rfl
      rw [QuadNode.filter, if_neg (by rw [hr]; simp [hroot])]
    | node r children =>
      have hr : r = t.root.rect := by rw [h]; rfl
      rw [QuadNode.filter, if_neg (by rw [hr]; simp [hroot])]

/-- C8 witness: a rectangle whose center is within the radius passes the
test, and a tree whose root fails the test filters to the empty set. -/
theorem filter_by_radius_center_walk_witness :
    radius_filter_fn ⟨10, 4⟩ 9 ⟨0, 0, 8, 8⟩ = true ∧
    QuadTree.filter_by_radius
      (QuadTree.build 1 ⟨0, 0, 8, 8⟩ ⟨16, 16⟩ [(⟨1, 1⟩, ⟨2, 2⟩)]) ⟨100, 100⟩ 1 = [] :=
  ⟨filter_by_radius_center_walk.1 ⟨10, 4⟩ 9 ⟨0, 0, 8, 8⟩ (by norm_num) (by norm_num)
      (by norm_num) (by with_unfolding_all decide),
    filter_by_radius_center_walk.2
      (QuadTree.build 1 ⟨0, 0, 8, 8⟩ ⟨16, 16⟩ [(⟨1, 1⟩, ⟨2, 2⟩)]) ⟨100, 100⟩ 1
      (by with_unfolding_all decide)⟩

/-! ### Exact characterization of `intersect_line_point` (toward claim C7) -/

theorem sq_add_sq_pos {a b : ℚ} (h : ¬(a = 0 ∧ b = 0)) : 0 < a ^ 2 + b ^ 2 := by
  rcases Decidable.not_and_iff_or_not.1 h with ha | hb
  · have h1 : 0 < a ^ 2 := by positivity
    have h2 : 0 ≤ b ^ 2 := sq_nonneg b
    linarith
  · have h1 : 0 < b ^ 2 := by positivity
    have h2 : 0 ≤ a ^ 2 := sq_nonneg a
    linarith

/-- Scalar form of parallel decomposition: a vector with zero cross product
against a nonzero vector is a scalar multiple of it. -/
theorem parallel_coords {ux uy rx ry : ℚ} (hcross : ux * ry - uy * rx = 0)
    (hr : ¬(rx = 0 ∧ ry = 0)) :
    ux = (ux * rx + uy * ry) / (rx * rx + ry * ry) * rx ∧
    uy = (ux * rx + uy * ry) / (rx * rx + ry * ry) * ry := by
  have hrr : rx * rx + ry * ry ≠ 0 := by
    have := sq_add_sq_pos hr
    nlinarith
  constructor
  · field_simp
    linear_combination ry * hcross
  · field_simp
    linear_combination (-rx) * hcross

/-- Two vectors `u`, `w` with parallel directions, nonnegative dot product
and nonzero sum decompose the sum: `u = t·(u+w)` for a `t ∈ [0,1]`. -/
theorem between_of_conds {ux uy wx wy : ℚ}
    (hdot : 0 ≤ ux * wx + uy * wy) (hcross : ux * wy - uy * wx = 0)
    (hr : ¬(ux + wx = 0 ∧ uy + wy = 0)) :
    ∃ t : ℚ, 0 ≤ t ∧ t ≤ 1 ∧ ux = t * (ux + wx) ∧ uy = t * (uy + wy) := by
  have hur : ux * (uy + wy) - uy * (ux + wx) = 0 := by linear_combination hcross
  obtain ⟨hx, hy⟩ := parallel_coords hur hr
  refine ⟨(ux * (ux + wx) + uy * (uy + wy)) / ((ux + wx) * (ux + wx) + (uy + wy) * (uy + wy)),
    ?_, ?_, hx, hy⟩ <;>
  · set t := (ux * (ux + wx) + uy * (uy + wy)) /
      ((ux + wx) * (ux + wx) + (uy + wy) * (uy + wy)) with ht
    have hwx : wx = (1 - t) * (ux + wx) := by linear_combination -hx
    have hwy : wy = (1 - t) * (uy + wy) := by linear_combination -hy
    have hdot2 : ux * wx + uy * wy =
        t * (1 - t) * ((ux + wx) ^ 2 + (uy + wy) ^ 2) := by
      linear_combination wx * hx + (t * (ux + wx)) * hwx + wy * hy + (t * (uy + wy)) * hwy
    have hR : 0 < (ux + wx) ^ 2 + (uy + wy) ^ 2 := sq_add_sq_pos hr
    have hprod : 0 ≤ t * (1 - t) := by
      by_contra hneg
      push_neg at hneg
      nlinarith
    nlinarith

/-- Exact meaning of `intersect_line_point`: it answers `some` exactly when
the point lies on the closed segment. -/
theorem intersect_line_point_isSome_iff {A B P : Vec2q} :
    (intersect_line_point A B P).isSome = true ↔ onSeg A B P := by
  by_cases h1 : A = P
  · simp only [intersect_line_point, if_pos h1]
    simp only [Option.isSome_some, true_iff]
    exact ⟨0, le_refl 0, by norm_num, by
      subst h1
      refine Vec2q.ext_iff.2 ⟨?_, ?_⟩ <;> (simp; try ring)⟩
  · by_cases h2 : B = P
    · simp only [intersect_line_point, if_neg h1, if_pos h2]
      simp only [Option.isSome_some, true_iff]
      exact ⟨1, by norm_num, le_refl 1, by
        subst h2
        refine Vec2q.ext_iff.2 ⟨?_, ?_⟩ <;> (simp; try ring)⟩
    · simp only [intersect_line_point, if_neg h1, if_neg h2]
      constructor
      · intro hs
        rw [Option.isSome_iff_exists] at hs
        obtain ⟨pt, hpt⟩ := hs
        split_ifs at hpt with hcond
        · obtain ⟨hge, heq⟩ := hcond
          have hdot : 0 ≤ (P.x - A.x) * (B.x - P.x) + (P.y - A.y) * (B.y - P.y) := by
            nlinarith [hge]
          rw [show (B.x - A.x) * (B.x - A.x) + (B.y - A.y) * (B.y - A.y) -
              ((P.x - A.x) * (P.x - A.x) + (P.y - A.y) * (P.y - A.y)) -
              ((B.x - P.x) * (B.x - P.x) + (B.y - P.y) * (B.y - P.y)) =
              2 * ((P.x - A.x) * (B.x - P.x) + (P.y - A.y) * (B.y - P.y)) from by ring]
            at heq
          have hC : ((P.x - A.x) * (B.y - P.y) - (P.y - A.y) * (B.x - P.x)) ^ 2 = 0 := by
            linear_combination ((-1 : ℚ) / 4) * heq
          have hcross : (P.x - A.x) * (B.y - P.y) - (P.y - A.y) * (B.x - P.x) = 0 :=
            pow_eq_zero_iff two_ne_zero |>.1 hC
          have hAB : ¬((P.x - A.x) + (B.x - P.x) = 0 ∧ (P.y - A.y) + (B.y - P.y) = 0) := by
            rintro ⟨hbx, hby⟩
            have hne := Vec2q.sub_ne_zero_coords h1
            have hzx : P.x - A.x = 0 := by nlinarith [hdot]
            have hzy : P.y - A.y = 0 := by nlinarith [hdot]
            exact hne ⟨hzx, hzy⟩
          obtain ⟨t, ht0, ht1, hx, hy⟩ := between_of_conds hdot hcross hAB
          refine ⟨t, ht0, ht1, Vec2q.ext_iff.2 ⟨?_, ?_⟩⟩
          · simp only [Vec2q.add_x, Vec2q.smul_x, Vec2q.sub_x]
            linarith [hx]
          · simp only [Vec2q.add_y, Vec2q.smul_y, Vec2q.sub_y]
            linarith [hy]
      · rintro ⟨t, ht0, ht1, hP⟩
        have hPx : P.x = A.x + t * (B.x - A.x) := by
          have := congrArg Vec2q.x hP
          simpa using this
        have hPy : P.y = A.y + t * (B.y - A.y) := by
          have := congrArg Vec2q.y hP
          simpa using this
        rw [if_pos]
        · simp
        · rw [hPx, hPy]
          constructor
          · nlinarith [mul_nonneg (mul_nonneg ht0 (by linarith : (0:ℚ) ≤ 1 - t))
              (add_nonneg (sq_nonneg (B.x - A.x)) (sq_nonneg (B.y - A.y)))]
          · ring

/-! ### `intersect_lines` detects exactly the true intersections -/

/-- Existential form of the parallel decomposition. -/
theorem parallel_coords_ex {ux uy rx ry : ℚ} (hcross : ux * ry - uy * rx = 0)
    (hr : ¬(rx = 0 ∧ ry = 0)) : ∃ k : ℚ, ux = k * rx ∧ uy = k * ry :=
  ⟨(ux * rx + uy * ry) / (rx * rx + ry * ry), parallel_coords hcross hr⟩

/-- A point common to two parallel segments puts the second segment's start
on the first segment's line. -/
theorem collinear_of_common_parallel {a b c d X : Vec2q}
    (hpar : Vec2q.perp_dot (b - a) (d - c) = 0)
    (hXa : onSeg a b X) (hXb : onSeg c d X) :
    Vec2q.perp_dot (c - a) (b - a) = 0 := by
  obtain ⟨t, -, -, hXt⟩ := hXa
  obtain ⟨u, -, -, hXu⟩ := hXb
  have hxy := hXt.symm.trans hXu
  have ex : c.x - a.x = t * (b.x - a.x) - u * (d.x - c.x) := by
    have := congrArg Vec2q.x hxy
    simp at this
    linarith
  have ey : c.y - a.y = t * (b.y - a.y) - u * (d.y - c.y) := by
    have := congrArg Vec2q.y hxy
    simp at this
    linarith
  have hpar' : (b.x - a.x) * (d.y - c.y) - (b.y - a.y) * (d.x - c.x) = 0 := by
    simpa [Vec2q.perp_dot] using hpar
  simp only [Vec2q.perp_dot, Vec2q.sub_x, Vec2q.sub_y]
  linear_combination (b.y - a.y) * ex - (b.x - a.x) * ey + u * hpar'

/-- Any point of a degenerate segment is its (shared) endpoint. -/
theorem onSeg_degenerate {a X : Vec2q} (h : onSeg a a X) : X = a := by
  obtain ⟨t, -, -, hX⟩ := h
  rw [hX]
  refine Vec2q.ext_iff.2 ⟨?_, ?_⟩ <;> (simp; try ring)

/-- Forward detection: if the two closed segments share a point, then
`intersect_lines` returns `some`. -/
theorem intersect_lines_isSome_of_common {a b c d X : Vec2q}
    (hXa : onSeg a b X) (hXb : onSeg c d X) :
    (intersect_lines a b c d).isSome = true := by
  have hsep := aabb_reject_no_common hXa hXb
  unfold intersect_lines
  rw [if_neg hsep]
  unfold intersect_lines_core
  by_cases hpar : Vec2q.perp_dot (b - a) (d - c) = 0
  · rw [if_pos hpar]
    by_cases hab : a = b
    · have hXa2 : X = a := onSeg_degenerate (hab ▸ hXa)
      by_cases hcd : c = d
      · have hXc : X = c := onSeg_degenerate (hcd ▸ hXb)
        have hac : a = c := by rw [← hXa2, hXc]
        rw [if_pos (Or.inl hab), if_pos ⟨hab, hcd, hac⟩]
        simp
      · rw [if_pos (Or.inl hab),
          if_neg (show ¬(a = b ∧ c = d ∧ a = c) from fun h => hcd h.2.1), if_pos hab,
          intersect_line_point_isSome_iff]
        rw [← hXa2]
        exact hXb
    · by_cases hcd : c = d
      · have hXc : X = c := onSeg_degenerate (hcd ▸ hXb)
        rw [if_pos (Or.inr hcd),
          if_neg (show ¬(a = b ∧ c = d ∧ a = c) from fun h => hab h.1), if_neg hab,
          intersect_line_point_isSome_iff]
        rw [← hXc]
        exact hXa
      · have hcol := collinear_of_common_parallel hpar hXa hXb
        rw [if_neg (not_or.2 ⟨hab, hcd⟩), if_pos hcol]
        simp
  · rw [if_neg hpar]
    obtain ⟨t0, ht0, ht1, hXt⟩ := hXa
    obtain ⟨u0, hu0, hu1, hXu⟩ := hXb
    obtain ⟨hteq, hueq⟩ := param_eq_of_common hpar hXt hXu
    rw [if_pos (by rw [hteq, hueq]; exact ⟨ht0, ht1, hu0, hu1⟩)]
    simp

/-- Collinear segments that survive the AABB tests really overlap: the
1D interval of the second segment along the shared direction meets `[0,1]`. -/
theorem common_of_collinear_pass {a b c d : Vec2q}
    (hsep : ¬ aabb_reject a b c d) (hab : a ≠ b) (hcd : c ≠ d)
    (hpar : Vec2q.perp_dot (b - a) (d - c) = 0)
    (hcol : Vec2q.perp_dot (c - a) (b - a) = 0) :
    ∃ X, onSeg a b X ∧ onSeg c d X := by
  have hr : ¬(b.x - a.x = 0 ∧ b.y - a.y = 0) := Vec2q.sub_ne_zero_coords hab
  have hcol' : (c.x - a.x) * (b.y - a.y) - (c.y - a.y) * (b.x - a.x) = 0 := by
    simpa [Vec2q.perp_dot] using hcol
  have hpar' : (d.x - c.x) * (b.y - a.y) - (d.y - c.y) * (b.x - a.x) = 0 := by
    have := hpar
    simp only [Vec2q.perp_dot, Vec2q.sub_x, Vec2q.sub_y] at this
    linear_combination -this
  obtain ⟨α, hcx, hcy⟩ := parallel_coords_ex hcol' hr
  obtain ⟨κ, hdx, hdy⟩ := parallel_coords_ex hpar' hr
  have hκ : κ ≠ 0 := by
    intro h0
    rw [h0, zero_mul] at hdx hdy
    exact hcd (Vec2q.ext_iff.2 ⟨by linarith, by linarith⟩).symm
  have hdax : d.x - a.x = (α + κ) * (b.x - a.x) := by linear_combination hdx + hcx
  have hday : d.y - a.y = (α + κ) * (b.y - a.y) := by linear_combination hdy + hcy
  -- not both parameters above 1 (else the AABB tests separate the segments)
  have hN1 : ¬(1 < α ∧ 1 < α + κ) := by
    rintro ⟨hα, hβ⟩
    apply hsep
    unfold aabb_reject
    rcases lt_trichotomy (b.x - a.x) 0 with hrx | hrx | hrx
    · exact Or.inl ⟨by nlinarith [mul_neg_of_pos_of_neg (by linarith : (0:ℚ) < α + κ - 1) hrx],
        by nlinarith [mul_neg_of_pos_of_neg (by linarith : (0:ℚ) < α - 1) hrx],
        by nlinarith [mul_neg_of_pos_of_neg (by linarith : (0:ℚ) < α + κ) hrx],
        by nlinarith [mul_neg_of_pos_of_neg (by linarith : (0:ℚ) < α) hrx]⟩
    · have hry : b.y - a.y ≠ 0 := by
        intro h
        exact hr ⟨hrx, h⟩
      rcases lt_or_gt_of_ne hry with hry | hry
      · exact Or.inr (Or.inr (Or.inl
          ⟨by nlinarith [mul_neg_of_pos_of_neg (by linarith : (0:ℚ) < α + κ - 1) hry],
            by nlinarith [mul_neg_of_pos_of_neg (by linarith : (0:ℚ) < α - 1) hry],
            by nlinarith [mul_neg_of_pos_of_neg (by linarith : (0:ℚ) < α + κ) hry],
            by nlinarith [mul_neg_of_pos_of_neg (by linarith : (0:ℚ) < α) hry]⟩))
      · exact Or.inr (Or.inr (Or.inr
          ⟨by nlinarith [mul_pos (by linarith : (0:ℚ) < α + κ - 1) hry],
            by nlinarith [mul_pos (by linarith : (0:ℚ) < α - 1) hry],
            by nlinarith [mul_pos (by linarith : (0:ℚ) < α + κ) hry],
            by nlinarith [mul_pos (by linarith : (0:ℚ) < α) hry]⟩))
    · exact Or.inr (Or.inl ⟨by nlinarith [mul_pos (by linarith : (0:ℚ) < α + κ - 1) hrx],
        by nlinarith [mul_pos (by linarith : (0:ℚ) < α - 1) hrx],
        by nlinarith [mul_pos (by linarith : (0:ℚ) < α + κ) hrx],
        by nlinarith [mul_pos (by linarith : (0:ℚ) < α) hrx]⟩)
  -- not both parameters below 0
  have hN2 : ¬(α < 0 ∧ α + κ < 0) := by
    rintro ⟨hα, hβ⟩
    apply hsep
    unfold aabb_reject
    rcases lt_trichotomy (b.x - a.x) 0 with hrx | hrx | hrx
    · exact Or.inr (Or.inl ⟨by nlinarith [mul_pos_of_neg_of_neg (by linarith : α + κ - 1 < 0) hrx],
        by nlinarith [mul_pos_of_neg_of_neg (by linarith : α + κ < 0) hrx],
        by nlinarith [mul_pos_of_neg_of_neg (by linarith : α - 1 < 0) hrx],
        by nlinarith [mul_pos_of_neg_of_neg (by linarith : α < 0) hrx]⟩)
    · have hry : b.y - a.y ≠ 0 := by
        intro h
        exact hr ⟨hrx, h⟩
      rcases lt_or_gt_of_ne hry with hry | hry
      · exact Or.inr (Or.inr (Or.inr
          ⟨by nlinarith [mul_pos_of_neg_of_neg (by linarith : α + κ - 1 < 0) hry],
            by nlinarith [mul_pos_of_neg_of_neg (by linarith : α + κ < 0) hry],
            by nlinarith [mul_pos_of_neg_of_neg (by linarith : α - 1 < 0) hry],
            by nlinarith [mul_pos_of_neg_of_neg (by linarith : α < 0) hry]⟩))
      · exact Or.inr (Or.inr (Or.inl
          ⟨by nlinarith [mul_neg_of_neg_of_pos (by linarith : α + κ - 1 < 0) hry],
            by nlinarith [mul_neg_of_neg_of_pos (by linarith : α + κ < 0) hry],
            by nlinarith [mul_neg_of_neg_of_pos (by linarith : α - 1 < 0) hry],
            by nlinarith [mul_neg_of_neg_of_pos (by linarith : α < 0) hry]⟩))
    · exact Or.inl ⟨by nlinarith [mul_neg_of_neg_of_pos (by linarith : α + κ - 1 < 0) hrx],
        by nlinarith [mul_neg_of_neg_of_pos (by linarith : α + κ < 0) hrx],
        by nlinarith [mul_neg_of_neg_of_pos (by linarith : α - 1 < 0) hrx],
        by nlinarith [mul_neg_of_neg_of_pos (by linarith : α < 0) hrx]⟩
  -- a parameter in both intervals
  set γ := max 0 (min α (α + κ)) with hγ
  have hγ0 : 0 ≤ γ := le_max_left _ _
  have hγ1 : γ ≤ 1 := by
    rw [hγ]
    rcases le_or_lt α 1 with h | h
    · exact max_le (by norm_num) (le_trans (min_le_left _ _) h)
    · have hβ : α + κ ≤ 1 := by
        by_contra hc
        exact hN1 ⟨h, by linarith⟩
      exact max_le (by norm_num) (le_trans (min_le_right _ _) hβ)
  have hγlo : min α (α + κ) ≤ γ := le_max_right _ _
  have hγhi : γ ≤ max α (α + κ) := by
    rw [hγ]
    have h0 : 0 ≤ max α (α + κ) := by
      rcases le_or_lt 0 α with h | h
      · exact le_trans h (le_max_left _ _)
      · have hβ : 0 ≤ α + κ := by
          by_contra hc
          exact hN2 ⟨h, by linarith⟩
        exact le_trans hβ (le_max_right _ _)
    exact max_le h0 min_le_max
  refine ⟨⟨a.x + γ * (b.x - a.x), a.y + γ * (b.y - a.y)⟩,
    ⟨γ, hγ0, hγ1, by refine Vec2q.ext_iff.2 ⟨?_, ?_⟩ <;> simp⟩,
    ⟨(γ - α) / κ, ?_, ?_, ?_⟩⟩
  · rcases lt_or_gt_of_ne hκ with hk | hk
    · have hγα : γ ≤ α := by
        calc γ ≤ max α (α + κ) := hγhi
          _ = α := max_eq_left (by linarith)
      rw [le_div_iff_of_neg hk]
      nlinarith
    · have hαγ : α ≤ γ := by
        calc α = min α (α + κ) := (min_eq_left (by linarith)).symm
          _ ≤ γ := hγlo
      exact div_nonneg (by linarith) (le_of_lt hk)
  · rcases lt_or_gt_of_ne hκ with hk | hk
    · have hge : α + κ ≤ γ := by
        calc α + κ = min α (α + κ) := (min_eq_right (by linarith)).symm
          _ ≤ γ := hγlo
      rw [div_le_iff_of_neg hk]
      linarith
    · have hle : γ ≤ α + κ := by
        calc γ ≤ max α (α + κ) := hγhi
          _ = α + κ := max_eq_right (by linarith)
      rw [div_le_iff₀ hk]
      linarith
  · refine Vec2q.ext_iff.2 ⟨?_, ?_⟩ <;>
      simp only [Vec2q.add_x, Vec2q.add_y, Vec2q.smul_x, Vec2q.smul_y,
        Vec2q.sub_x, Vec2q.sub_y]
    · rw [hdx]
      have hcalc : (γ - α) / κ * (κ * (b.x - a.x)) = (γ - α) * (b.x - a.x) := by
        field_simp
        ring
      rw [hcalc]
      linarith [hcx]
    · rw [hdy]
      have hcalc : (γ - α) / κ * (κ * (b.y - a.y)) = (γ - α) * (b.y - a.y) := by
        field_simp
        ring
      rw [hcalc]
      linarith [hcy]

theorem onSeg_left (a b : Vec2q) : onSeg a b a :=
  ⟨0, le_refl 0, by norm_num, by
    refine Vec2q.ext_iff.2 ⟨?_, ?_⟩ <;> (simp; try ring)⟩

theorem onSeg_right (a b : Vec2q) : onSeg a b b :=
  ⟨1, by norm_num, le_refl 1, by
    refine Vec2q.ext_iff.2 ⟨?_, ?_⟩ <;> (simp; try ring)⟩

/-- Converse detection: whenever `intersect_lines` returns `some`, the two
closed segments really share a point (the shared point need not be the
returned one — the collinear branch returns a representative). -/
theorem common_of_intersect_lines_isSome {a b c d : Vec2q}
    (h : (intersect_lines a b c d).isSome = true) :
    ∃ X, onSeg a b X ∧ onSeg c d X := by
  unfold intersect_lines at h
  by_cases hsep : aabb_reject a b c d
  · rw [if_pos hsep] at h
    simp at h
  · rw [if_neg hsep] at h
    unfold intersect_lines_core at h
    by_cases hpar : Vec2q.perp_dot (b - a) (d - c) = 0
    · rw [if_pos hpar] at h
      by_cases hpt : a = b ∨ c = d
      · rw [if_pos hpt] at h
        by_cases htriple : a = b ∧ c = d ∧ a = c
        · refine ⟨a, onSeg_left a b, ?_⟩
          rw [htriple.2.2]
          exact onSeg_left c d
        · rw [if_neg htriple] at h
          by_cases hab : a = b
          · rw [if_pos hab, intersect_line_point_isSome_iff] at h
            exact ⟨a, onSeg_left a b, h⟩
          · rw [if_neg hab, intersect_line_point_isSome_iff] at h
            exact ⟨c, h, onSeg_left c d⟩
      · rw [if_neg hpt] at h
        by_cases hcol : Vec2q.perp_dot (c - a) (b - a) = 0
        · push_neg at hpt
          exact common_of_collinear_pass hsep hpt.1 hpt.2 hpar hcol
        · rw [if_neg hcol] at h
          simp at h
    · rw [if_neg hpar] at h
      by_cases hrange : 0 ≤ tParam a b c d ∧ tParam a b c d ≤ 1 ∧
          0 ≤ uParam a b c d ∧ uParam a b c d ≤ 1
      · obtain ⟨ht0, ht1, hu0, hu1⟩ := hrange
        exact ⟨a + tParam a b c d • (b - a), ⟨tParam a b c d, ht0, ht1, rfl⟩,
          ⟨uParam a b c d, hu0, hu1, cramer_eq hpar⟩⟩
      · rw [if_neg hrange] at h
        simp at h

/-! ### Claim C7: soundness of `filter_by_segment` -/

/-- Closed-rectangle membership: the reference notion behind the spec's
phrase "entirely outside the build bounds" (the source's half-open
`Rect::contains` is `Rectq.containsPt`). -/
def closedContains (r : Rectq) (p : Vec2q) : Prop :=
  r.x ≤ p.x ∧ p.x ≤ r.x + r.w ∧ r.y ≤ p.y ∧ p.y ≤ r.y + r.h

instance (r : Rectq) (p : Vec2q) : Decidable (closedContains r p) := by
  unfold closedContains
  infer_instance

theorem closedContains_of_containsPt {r : Rectq} {p : Vec2q}
    (h : r.containsPt p) : closedContains r p :=
  ⟨h.1, le_of_lt h.2.1, h.2.2.1, le_of_lt h.2.2.2⟩

/-- A point of the sub-segment `u–P` of `u–v` is a point of `u–v`. -/
theorem onSeg_sub_trans {u v P X : Vec2q} (h1 : onSeg u v P) (h2 : onSeg u P X) :
    onSeg u v X := by
  obtain ⟨τ, hτ0, hτ1, hP⟩ := h1
  obtain ⟨σ, hσ0, hσ1, hX⟩ := h2
  refine ⟨σ * τ, mul_nonneg hσ0 hτ0, by nlinarith, ?_⟩
  rw [hX, hP]
  refine Vec2q.ext_iff.2 ⟨?_, ?_⟩ <;> (simp; ring)

/-- 1D entry parameter of the walk from `u` toward `p` into the closed
interval `[lo, hi]` (one axis of Liang–Barsky clipping). -/
def entryT (lo hi u p : ℚ) : ℚ :=
  if u < lo then (lo - u) / (p - u)
  else if hi < u then (hi - u) / (p - u)
  else 0

theorem entryT_spec {lo hi p : ℚ} (u : ℚ) (hlo : lo ≤ p) (hhi : p ≤ hi) :
    0 ≤ entryT lo hi u p ∧ entryT lo hi u p ≤ 1 ∧
    (∀ s, entryT lo hi u p ≤ s → s ≤ 1 →
      lo ≤ u + s * (p - u) ∧ u + s * (p - u) ≤ hi) ∧
    (u < lo → u + entryT lo hi u p * (p - u) = lo) ∧
    (hi < u → u + entryT lo hi u p * (p - u) = hi) := by
  unfold entryT
  by_cases h1 : u < lo
  · rw [if_pos h1]
    have hpu : 0 < p - u := by linarith
    have heq : u + (lo - u) / (p - u) * (p - u) = lo := by field_simp
    refine ⟨div_nonneg (by linarith) hpu.le, by rw [div_le_one hpu]; linarith,
      ?_, fun _ => heq, fun h2 => absurd h2 (by linarith)⟩
    intro s hs hs1
    have hmono := mul_le_mul_of_nonneg_right hs hpu.le
    have hmono1 := mul_le_mul_of_nonneg_right hs1 hpu.le
    constructor
    · linarith
    · linarith
  · rw [if_neg h1]
    by_cases h2 : hi < u
    · rw [if_pos h2]
      have hpu : p - u < 0 := by linarith
      have hne : p - u ≠ 0 := ne_of_lt hpu
      have heq : u + (hi - u) / (p - u) * (p - u) = hi := by field_simp
      refine ⟨?_, ?_, ?_, fun h1' => absurd h1' h1, fun _ => heq⟩
      · rw [div_nonneg_iff]
        right
        constructor <;> linarith
      · rw [div_le_iff_of_neg hpu]
        linarith
      · intro s hs hs1
        have hmono := mul_le_mul_of_nonpos_right hs hpu.le
        have hmono1 := mul_le_mul_of_nonpos_right hs1 hpu.le
        constructor
        · linarith
        · linarith
    · rw [if_neg h2]
      push_neg at h1 h2
      refine ⟨le_refl 0, by norm_num, ?_, fun h => absurd h (not_lt.2 h1),
        fun h => absurd h (not_lt.2 h2)⟩
      intro s hs hs1
      constructor
      · nlinarith [mul_nonneg hs (by linarith : (0:ℚ) ≤ p - lo),
          mul_nonneg (by linarith : (0:ℚ) ≤ 1 - s) (by linarith : (0:ℚ) ≤ u - lo)]
      · nlinarith [mul_nonneg hs (by linarith : (0:ℚ) ≤ hi - p),
          mul_nonneg (by linarith : (0:ℚ) ≤ 1 - s) (by linarith : (0:ℚ) ≤ hi - u)]

theorem entryT_ne_zero_cases {lo hi u p : ℚ} (h : entryT lo hi u p ≠ 0) :
    u < lo ∨ hi < u := by
  by_contra hc
  push_neg at hc
  apply h
  unfold entryT
  rw [if_neg (not_lt.2 hc.1), if_neg (not_lt.2 hc.2)]

/-- A point of the closed rectangle lying on its boundary lies on one of the
four edge segments tested by `line_rect_intersect`. -/
theorem boundary_mem_edge {r : Rectq} {X : Vec2q} (hw : 0 < r.w) (hh : 0 < r.h)
    (hc : closedContains r X)
    (hb : X.x = r.x ∨ X.x = r.x + r.w ∨ X.y = r.y ∨ X.y = r.y + r.h) :
    ∃ e ∈ rectEdges r, onSeg e.1 e.2 X := by
  obtain ⟨hx1, hx2, hy1, hy2⟩ := hc
  rcases hb with hb | hb | hb | hb
  · refine ⟨(⟨r.x, r.y⟩, ⟨r.x, r.y + r.h⟩), by unfold rectEdges; simp, ?_⟩
    refine ⟨(X.y - r.y) / r.h, div_nonneg (by linarith) hh.le,
      by rw [div_le_one hh]; linarith, ?_⟩
    refine Vec2q.ext_iff.2 ⟨?_, ?_⟩ <;> simp
    · rw [hb]
    · field_simp
  · refine ⟨(⟨r.x + r.w, r.y⟩, ⟨r.x + r.w, r.y + r.h⟩), by unfold rectEdges; simp, ?_⟩
    refine ⟨(X.y - r.y) / r.h, div_nonneg (by linarith) hh.le,
      by rw [div_le_one hh]; linarith, ?_⟩
    refine Vec2q.ext_iff.2 ⟨?_, ?_⟩ <;> simp
    · rw [hb]
    · field_simp
  · refine ⟨(⟨r.x, r.y⟩, ⟨r.x + r.w, r.y⟩), by unfold rectEdges; simp, ?_⟩
    refine ⟨(X.x - r.x) / r.w, div_nonneg (by linarith) hw.le,
      by rw [div_le_one hw]; linarith, ?_⟩
    refine Vec2q.ext_iff.2 ⟨?_, ?_⟩ <;> simp
    · field_simp
    · rw [hb]
  · refine ⟨(⟨r.x, r.y + r.h⟩, ⟨r.x + r.w, r.y + r.h⟩), by unfold rectEdges; simp, ?_⟩
    refine ⟨(X.x - r.x) / r.w, div_nonneg (by linarith) hw.le,
      by rw [div_le_one hw]; linarith, ?_⟩
    refine Vec2q.ext_iff.2 ⟨?_, ?_⟩ <;> simp
    · field_simp
    · rw [hb]

/-- Every point of an edge segment of a (nonnegatively sized) rectangle lies
in the closed rectangle. -/
theorem edge_pt_closed {r : Rectq} {e : Vec2q × Vec2q} {X : Vec2q}
    (hw : 0 ≤ r.w) (hh : 0 ≤ r.h) (he : e ∈ rectEdges r) (hX : onSeg e.1 e.2 X) :
    closedContains r X := by
  obtain ⟨t, ht0, ht1, hXe⟩ := hX
  unfold rectEdges at he
  simp only [List.mem_cons, List.not_mem_nil, or_false] at he
  rcases he with he | he | he | he <;>
    (subst he
     rw [hXe]
     refine ⟨?_, ?_, ?_, ?_⟩ <;> simp <;>
       nlinarith [mul_nonneg ht0 hw, mul_nonneg ht0 hh,
         mul_le_of_le_one_left hw ht1, mul_le_of_le_one_left hh ht1])

/-- Once the `min_by` fold's accumulator is `some`, it stays `some`. -/
theorem pickMinFold_isSome (start : Vec2q) :
    ∀ (l : List (Vec2q × Vec2q)) (acc : Vec2q × Vec2q),
      (l.foldl (fun acc e =>
        match acc with
        | none => some e
        | some m =>
          if (e.1 - start).length_squared < (m.1 - start).length_squared then some e
          else acc) (some acc)).isSome = true := by
  intro l
  induction l with
  | nil =>
    intro acc
    simp
  | cons x xs ih =>
    intro acc
    rw [List.foldl_cons]
    dsimp only
    split
    · exact ih x
    · exact ih acc

/-- Once the `max_by` fold's accumulator is `some`, it stays `some`. -/
theorem pickMaxFold_isSome (start : Vec2q) :
    ∀ (l : List (Vec2q × Vec2q)) (acc : Vec2q × Vec2q),
      (l.foldl (fun acc e =>
        match acc with
        | none => some e
        | some m =>
          if (e.1 - start).length_squared ≥ (m.1 - start).length_squared then some e
          else acc) (some acc)).isSome = true := by
  intro l
  induction l with
  | nil =>
    intro acc
    simp
  | cons x xs ih =>
    intro acc
    rw [List.foldl_cons]
    dsimp only
    split
    · exact ih x
    · exact ih acc

/-- `line_rect_intersect` succeeds as soon as some rectangle edge segment
intersects the query segment. -/
theorem line_rect_intersect_isSome_of_hit {u v : Vec2q} {r : Rectq}
    (h : ∃ e ∈ rectEdges r, (intersect_lines e.1 e.2 u v).isSome = true) :
    (line_rect_intersect u v r).isSome = true := by
  obtain ⟨e, he, hsome⟩ := h
  obtain ⟨i, hi⟩ := Option.isSome_iff_exists.1 hsome
  have hmem : (i, normalizeAxis (perpq (e.1 - e.2))) ∈ lineRectHits u v r := by
    unfold lineRectHits
    rw [List.mem_filterMap]
    refine ⟨(intersect_lines e.1 e.2 u v, normalizeAxis (perpq (e.1 - e.2))), ?_, ?_⟩
    · rw [List.mem_map]
      exact ⟨e, he, rfl⟩
    · rw [hi]
      rfl
  obtain ⟨x, xs, hl⟩ : ∃ x xs, lineRectHits u v r = x :: xs := by
    cases hlrh : lineRectHits u v r with
    | nil =>
      rw [hlrh] at hmem
      simp at hmem
    | cons x xs => exact ⟨x, xs, rfl⟩
  have h1 : (pickMinBy u (lineRectHits u v r)).isSome = true := by
    rw [hl]
    unfold pickMinBy
    rw [List.foldl_cons]
    exact pickMinFold_isSome u xs x
  have h2 : (pickMaxBy u (lineRectHits u v r)).isSome = true := by
    rw [hl]
    unfold pickMaxBy
    rw [List.foldl_cons]
    exact pickMaxFold_isSome u xs x
  obtain ⟨mn, hmn⟩ := Option.isSome_iff_exists.1 h1
  obtain ⟨mx, hmx⟩ := Option.isSome_iff_exists.1 h2
  unfold line_rect_intersect
  rw [hmn, hmx]
  rfl

/-- Conversely, a successful `line_rect_intersect` exhibits an edge segment
that `intersect_lines` accepts against the query segment. -/
theorem line_rect_intersect_isSome_elim {u v : Vec2q} {r : Rectq}
    (h : (line_rect_intersect u v r).isSome = true) :
    ∃ e ∈ rectEdges r, (intersect_lines e.1 e.2 u v).isSome = true := by
  unfold line_rect_intersect at h
  cases hl : lineRectHits u v r with
  | nil =>
    rw [hl] at h
    simp [pickMinBy, pickMaxBy] at h
  | cons x xs =>
    have hx : x ∈ lineRectHits u v r := by
      rw [hl]
      exact List.mem_cons_self x xs
    unfold lineRectHits at hx
    rw [List.mem_filterMap] at hx
    obtain ⟨a, ha, hfa⟩ := hx
    rw [List.mem_map] at ha
    obtain ⟨e, he, rfl⟩ := ha
    refine ⟨e, he, ?_⟩
    cases hils : intersect_lines e.1 e.2 u v with
    | none =>
      rw [hils] at hfa
      simp at hfa
    | some i => rfl

/-- A segment from a point outside the closed rectangle to a point inside it
meets the rectangle's boundary: some edge segment shares a point with it. -/
theorem seg_enters_rect {r : Rectq} {u P : Vec2q} (hw : 0 < r.w) (hh : 0 < r.h)
    (hu : ¬ closedContains r u) (hP : closedContains r P) :
    ∃ e ∈ rectEdges r, ∃ X, onSeg e.1 e.2 X ∧ onSeg u P X := by
  obtain ⟨hP1, hP2, hP3, hP4⟩ := hP
  obtain ⟨hx0, hx1, hxm, hxlo, hxhi⟩ := entryT_spec u.x hP1 hP2
  obtain ⟨hy0, hy1, hym, hylo, hyhi⟩ := entryT_spec u.y hP3 hP4
  have ht0 : 0 ≤ max (entryT r.x (r.x + r.w) u.x P.x) (entryT r.y (r.y + r.h) u.y P.y) :=
    le_trans hx0 (le_max_left _ _)
  have ht1 : max (entryT r.x (r.x + r.w) u.x P.x) (entryT r.y (r.y + r.h) u.y P.y) ≤ 1 :=
    max_le hx1 hy1
  have hXx := hxm _ (le_max_left (entryT r.x (r.x + r.w) u.x P.x)
    (entryT r.y (r.y + r.h) u.y P.y)) ht1
  have hXy := hym _ (le_max_right (entryT r.x (r.x + r.w) u.x P.x)
    (entryT r.y (r.y + r.h) u.y P.y)) ht1
  have hXc : closedContains r (u +
      max (entryT r.x (r.x + r.w) u.x P.x) (entryT r.y (r.y + r.h) u.y P.y) • (P - u)) := by
    refine ⟨?_, ?_, ?_, ?_⟩ <;> simp
    · exact hXx.1
    · exact hXx.2
    · exact hXy.1
    · exact hXy.2
  have htne : max (entryT r.x (r.x + r.w) u.x P.x) (entryT r.y (r.y + r.h) u.y P.y) ≠ 0 := by
    intro h0
    apply hu
    have hid : (u + max (entryT r.x (r.x + r.w) u.x P.x)
        (entryT r.y (r.y + r.h) u.y P.y) • (P - u)) = u := by
      rw [h0]
      refine Vec2q.ext_iff.2 ⟨?_, ?_⟩ <;> simp
    rw [hid] at hXc
    exact hXc
  have hbd : (u + max (entryT r.x (r.x + r.w) u.x P.x)
      (entryT r.y (r.y + r.h) u.y P.y) • (P - u)).x = r.x ∨
      (u + max (entryT r.x (r.x + r.w) u.x P.x)
      (entryT r.y (r.y + r.h) u.y P.y) • (P - u)).x = r.x + r.w ∨
      (u + max (entryT r.x (r.x + r.w) u.x P.x)
      (entryT r.y (r.y + r.h) u.y P.y) • (P - u)).y = r.y ∨
      (u + max (entryT r.x (r.x + r.w) u.x P.x)
      (entryT r.y (r.y + r.h) u.y P.y) • (P - u)).y = r.y + r.h := by
    rcases max_choice (entryT r.x (r.x + r.w) u.x P.x)
        (entryT r.y (r.y + r.h) u.y P.y) with hmax | hmax
    · have hne : entryT r.x (r.x + r.w) u.x P.x ≠ 0 := by
        rw [← hmax]
        exact htne
      rcases entryT_ne_zero_cases hne with hcase | hcase
      · left
        simp [hmax]
        rw [hxlo hcase]
      · right
        left
        simp [hmax]
        rw [hxhi hcase]
    · have hne : entryT r.y (r.y + r.h) u.y P.y ≠ 0 := by
        rw [← hmax]
        exact htne
      rcases entryT_ne_zero_cases hne with hcase | hcase
      · right
        right
        left
        simp [hmax]
        rw [hylo hcase]
      · right
        right
        right
        simp [hmax]
        rw [hyhi hcase]
  obtain ⟨e, he, hXe⟩ := boundary_mem_edge hw hh hXc hbd
  exact ⟨e, he, _, hXe, ⟨_, ht0, ht1, rfl⟩⟩

/-- The key geometric fact behind C7's positive half: if a point of the
closed segment `u–v` lies (half-open) inside `r`, the source's touch test
(`contains` either endpoint, or `line_rect_intersect` succeeds) accepts the
segment at `r`. -/
theorem segTouchesRect_of_common {u v P : Vec2q} {r : Rectq}
    (hP : r.containsPt P) (hseg : onSeg u v P) : segTouchesRect u v r = true := by
  have hw : 0 < r.w := by
    obtain ⟨h1, h2, h3, h4⟩ := hP
    linarith
  have hh : 0 < r.h := by
    obtain ⟨h1, h2, h3, h4⟩ := hP
    linarith
  by_cases hcu : r.containsPt u
  · simp [segTouchesRect, hcu]
  · have hedge : ∃ e ∈ rectEdges r, ∃ X, onSeg e.1 e.2 X ∧ onSeg u v X := by
      by_cases hcc : closedContains r u
      · have hb : u.x = r.x + r.w ∨ u.y = r.y + r.h := by
          obtain ⟨h1, h2, h3, h4⟩ := hcc
          by_cases hx : u.x = r.x + r.w
          · exact Or.inl hx
          · right
            by_contra hy
            exact hcu ⟨h1, lt_of_le_of_ne h2 hx, h3, lt_of_le_of_ne h4 hy⟩
        obtain ⟨e, he, hXe⟩ := boundary_mem_edge hw hh hcc
          (by rcases hb with hb | hb
              · exact Or.inr (Or.inl hb)
              · exact Or.inr (Or.inr (Or.inr hb)))
        exact ⟨e, he, u, hXe, onSeg_left u v⟩
      · obtain ⟨e, he, X, hXe, hXuP⟩ :=
          seg_enters_rect hw hh hcc (closedContains_of_containsPt hP)
        exact ⟨e, he, X, hXe, onSeg_sub_trans hseg hXuP⟩
    obtain ⟨e, he, X, hXe, hXuv⟩ := hedge
    have hlri := line_rect_intersect_isSome_of_hit
      ⟨e, he, intersect_lines_isSome_of_common hXe hXuv⟩
    unfold segTouchesRect
    rw [hlri]
    simp

/-- The four build quadrants tile a rectangle: half-open containment in the
parent gives half-open containment in one of the children (in the source's
subdivision order). -/
theorem halfOpen_child {r : Rectq} {P : Vec2q} (h : r.containsPt P) :
    Rectq.containsPt ⟨r.x, r.y, r.w / 2, r.h / 2⟩ P ∨
    Rectq.containsPt ⟨r.x, r.y + r.h / 2, r.w / 2, r.h / 2⟩ P ∨
    Rectq.containsPt ⟨r.x + r.w / 2, r.y, r.w / 2, r.h / 2⟩ P ∨
    Rectq.containsPt ⟨r.x + r.w / 2, r.y + r.h / 2, r.w / 2, r.h / 2⟩ P := by
  obtain ⟨h1, h2, h3, h4⟩ := h
  by_cases hx : P.x < r.x + r.w / 2 <;> by_cases hy : P.y < r.y + r.h / 2
  · exact Or.inl ⟨h1, hx, h3, hy⟩
  · refine Or.inr (Or.inl ⟨h1, hx, not_lt.1 hy, ?_⟩)
    show P.y < r.y + r.h / 2 + r.h / 2
    linarith
  · refine Or.inr (Or.inr (Or.inl ⟨not_lt.1 hx, ?_, h3, hy⟩))
    show P.x < r.x + r.w / 2 + r.w / 2
    linarith
  · refine Or.inr (Or.inr (Or.inr ⟨not_lt.1 hx, ?_, not_lt.1 hy, ?_⟩))
    · show P.x < r.x + r.w / 2 + r.w / 2
      linarith
    · show P.y < r.y + r.h / 2 + r.h / 2
      linarith

/-- Build/filter completeness: a stored segment through a point `P` that the
query segment also passes through is kept by `filter`, whenever `P` is
(half-open) inside the node's rectangle. -/
theorem build_filter_mem (q1 q2 : Vec2q) :
    ∀ (fuel : ℕ) (rect : Rectq) (min_size : Vec2q)
      (segs : List (Vec2q × Vec2q)) (s : Vec2q × Vec2q) (P : Vec2q),
      s ∈ segs → onSeg s.1 s.2 P → onSeg q1 q2 P → rect.containsPt P →
      s ∈ (QuadNode.build fuel rect min_size segs).filter
        (fun rc => segTouchesRect q1 q2 rc) := by
  intro fuel
  induction fuel with
  | zero =>
    intro rect ms segs s P hs hsP hqP hrP
    rw [QuadNode.build, if_pos (Or.inl rfl), QuadNode.filter,
      if_pos (segTouchesRect_of_common hrP hqP)]
    exact List.mem_filter.2 ⟨hs, segTouchesRect_of_common hrP hsP⟩
  | succ fuel ih =>
    intro rect ms segs s P hs hsP hqP hrP
    by_cases hsz : (⟨rect.w, rect.h⟩ : Vec2q).length_squared ≤ ms.length_squared
    · rw [QuadNode.build, if_pos (Or.inr hsz), QuadNode.filter,
        if_pos (segTouchesRect_of_common hrP hqP)]
      exact List.mem_filter.2 ⟨hs, segTouchesRect_of_common hrP hsP⟩
    · have hbuild : QuadNode.build (fuel + 1) rect ms segs = QuadNode.node rect
          [QuadNode.build fuel ⟨rect.x, rect.y, rect.w / 2, rect.h / 2⟩ ms segs,
           QuadNode.build fuel ⟨rect.x, rect.y + rect.h / 2, rect.w / 2, rect.h / 2⟩ ms segs,
           QuadNode.build fuel ⟨rect.x + rect.w / 2, rect.y, rect.w / 2, rect.h / 2⟩ ms segs,
           QuadNode.build fuel ⟨rect.x + rect.w / 2, rect.y + rect.h / 2, rect.w / 2,
             rect.h / 2⟩ ms segs] := by
        rw [QuadNode.build, if_neg (by
          rintro (h | h)
          · exact Nat.succ_ne_zero fuel h
          · exact hsz h)]
      rw [hbuild, QuadNode.filter, if_pos (segTouchesRect_of_common hrP hqP)]
      rw [List.mem_flatMap]
      rcases halfOpen_child hrP with hc | hc | hc | hc
      · refine ⟨⟨QuadNode.build fuel ⟨rect.x, rect.y, rect.w / 2, rect.h / 2⟩ ms segs,
          List.mem_cons_self _ _⟩, List.mem_attach _ _, ?_⟩
        exact ih _ _ _ s P hs hsP hqP hc
      · refine ⟨⟨QuadNode.build fuel ⟨rect.x, rect.y + rect.h / 2, rect.w / 2, rect.h / 2⟩
          ms segs, List.mem_cons_of_mem _ (List.mem_cons_self _ _)⟩, List.mem_attach _ _, ?_⟩
        exact ih _ _ _ s P hs hsP hqP hc
      · refine ⟨⟨QuadNode.build fuel ⟨rect.x + rect.w / 2, rect.y, rect.w / 2, rect.h / 2⟩
          ms segs, List.mem_cons_of_mem _ (List.mem_cons_of_mem _ (List.mem_cons_self _ _))⟩,
          List.mem_attach _ _, ?_⟩
        exact ih _ _ _ s P hs hsP hqP hc
      · refine ⟨⟨QuadNode.build fuel ⟨rect.x + rect.w / 2, rect.y + rect.h / 2, rect.w / 2,
          rect.h / 2⟩ ms segs, List.mem_cons_of_mem _ (List.mem_cons_of_mem _
          (List.mem_cons_of_mem _ (List.mem_cons_self _ _)))⟩, List.mem_attach _ _, ?_⟩
        exact ih _ _ _ s P hs hsP hqP hc

theorem build_rect (fuel : ℕ) (rect : Rectq) (ms : Vec2q)
    (segs : List (Vec2q × Vec2q)) : (QuadNode.build fuel rect ms segs).rect = rect := by
  rw [QuadNode.build.eq_def]
  split
  · rfl
  · split <;> rfl

/-- C7 counterexample: the stored segment `(1,1)–(20,1)` and the query
segment `(19,0)–(19,2)` truly intersect (at `(19,1)`), yet
`filter_by_segment` returns the empty set, because the intersection point
lies outside the build bounds `[0,8]²` and neither the query's endpoints nor
its edge crossings touch the root rectangle.  So the result is not a
superset of the truly intersecting stored segments. -/
theorem filter_by_segment_misses_true_intersection :
    (QuadTree.build 1 ⟨0, 0, 8, 8⟩ ⟨16, 16⟩
        [(⟨1, 1⟩, ⟨20, 1⟩)]).root.segments = some [(⟨1, 1⟩, ⟨20, 1⟩)] ∧
    onSeg ⟨1, 1⟩ ⟨20, 1⟩ ⟨19, 1⟩ ∧ onSeg ⟨19, 0⟩ ⟨19, 2⟩ ⟨19, 1⟩ ∧
    (QuadTree.build 1 ⟨0, 0, 8, 8⟩ ⟨16, 16⟩
        [(⟨1, 1⟩, ⟨20, 1⟩)]).filter_by_segment (⟨19, 0⟩, ⟨19, 2⟩) = [] := by
  refine ⟨by with_unfolding_all decide,
    ⟨18 / 19, by norm_num, by norm_num, by with_unfolding_all decide⟩,
    ⟨1 / 2, by norm_num, by norm_num, by with_unfolding_all decide⟩,
    by with_unfolding_all decide⟩

/-- C7 (amended): soundness of `filter_by_segment` relative to the build
bounds.  (1) No false negatives inside the bounds: the result contains every
stored segment sharing with the query segment a point that lies (half-open)
inside the build rectangle.  (2) A query segment lying entirely outside the
closed build bounds yields the empty set.  The original unrestricted
no-false-negatives claim fails: an intersection point outside the bounds can
be missed (see the counterexample). -/
theorem filter_by_segment_superset_inside_bounds :
    (∀ (fuel : ℕ) (rect : Rectq) (min_size : Vec2q) (segs : List (Vec2q × Vec2q))
       (s q : Vec2q × Vec2q) (P : Vec2q),
       s ∈ segs → onSeg s.1 s.2 P → onSeg q.1 q.2 P → rect.containsPt P →
       s ∈ (QuadTree.build fuel rect min_size segs).filter_by_segment q) ∧
    (∀ (fuel : ℕ) (rect : Rectq) (min_size : Vec2q) (segs : List (Vec2q × Vec2q))
       (q : Vec2q × Vec2q),
       0 ≤ rect.w → 0 ≤ rect.h →
       (∀ X, onSeg q.1 q.2 X → ¬ closedContains rect X) →
       (QuadTree.build fuel rect min_size segs).filter_by_segment q = []) := by
  constructor
  · intro fuel rect ms segs s q P hs hsP hqP hrP
    unfold QuadTree.filter_by_segment QuadTree.build
    exact build_filter_mem q.1 q.2 fuel rect ms segs s P hs hsP hqP hrP
  · intro fuel rect ms segs q hw hh hout
    unfold QuadTree.filter_by_segment QuadTree.build
    have hfn : segTouchesRect q.1 q.2 rect = false := by
      have h1 : ¬ rect.containsPt q.1 := fun hc =>
        hout q.1 (onSeg_left q.1 q.2) (closedContains_of_containsPt hc)
      have h2 : ¬ rect.containsPt q.2 := fun hc =>
        hout q.2 (onSeg_right q.1 q.2) (closedContains_of_containsPt hc)
      have h3 : (line_rect_intersect q.1 q.2 rect).isSome = false := by
        rw [Bool.eq_false_iff]
        intro hc
        obtain ⟨e, he, hils⟩ := line_rect_intersect_isSome_elim hc
        obtain ⟨X, hXe, hXq⟩ := common_of_intersect_lines_isSome hils
        exact hout X hXq (edge_pt_closed hw hh he hXe)
      unfold segTouchesRect
      rw [h3, decide_eq_false h1, decide_eq_false h2]
      rfl
    cases hb : QuadNode.build fuel rect ms segs with
    | leaf r sl =>
      have hr : r = rect := by
        have h := build_rect fuel rect ms segs
        rw [hb] at h
        exact h
      rw [QuadNode.filter, if_neg (by rw [hr]; simp [hfn])]
    | node r ch =>
      have hr : r = rect := by
        have h := build_rect fuel rect ms segs
        rw [hb] at h
        exact h
      rw [QuadNode.filter, if_neg (by rw [hr]; simp [hfn])]

/-- C7 witness: the stored segment is returned for a query crossing it
inside the bounds at `(2,1)`, and a query segment entirely outside the
closed bounds (at `x = 30`) filters to the empty set. -/
theorem filter_by_segment_superset_inside_bounds_witness :
    ((⟨1, 1⟩, ⟨20, 1⟩) : Vec2q × Vec2q) ∈
      (QuadTree.build 1 ⟨0, 0, 8, 8⟩ ⟨16, 16⟩
        [(⟨1, 1⟩, ⟨20, 1⟩)]).filter_by_segment (⟨2, 0⟩, ⟨2, 2⟩) ∧
    (QuadTree.build 1 ⟨0, 0, 8, 8⟩ ⟨16, 16⟩
        [(⟨1, 1⟩, ⟨20, 1⟩)]).filter_by_segment (⟨30, 0⟩, ⟨30, 2⟩) = [] := by
  constructor
  · exact filter_by_segment_superset_inside_bounds.1 1 ⟨0, 0, 8, 8⟩ ⟨16, 16⟩
      [(⟨1, 1⟩, ⟨20, 1⟩)] (⟨1, 1⟩, ⟨20, 1⟩) (⟨2, 0⟩, ⟨2, 2⟩) ⟨2, 1⟩
      (List.mem_singleton.2 rfl)
      ⟨1 / 19, by norm_num, by norm_num, by with_unfolding_all decide⟩
      ⟨1 / 2, by norm_num, by norm_num, by with_unfolding_all decide⟩
      (by with_unfolding_all decide)
  · refine filter_by_segment_superset_inside_bounds.2 1 ⟨0, 0, 8, 8⟩ ⟨16, 16⟩
      [(⟨1, 1⟩, ⟨20, 1⟩)] (⟨30, 0⟩, ⟨30, 2⟩) (by norm_num) (by norm_num) ?_
    intro X hX hc
    obtain ⟨t, ht0, ht1, hXe⟩ := hX
    have hx : X.x = 30 := by
      rw [hXe]
      simp
    obtain ⟨hc1, hc2, hc3, hc4⟩ := hc
    rw [hx] at hc2
    norm_num at hc2
